import Mathlib

/-!
# Strong Birthday Problem: verification of the recurrence engines

Shallow embedding of a Python code base that computes the Strong Birthday
Problem probability (every day with at least one birthday has at least two)
by five arbitrary-precision algorithm variants plus two reduced-precision
ones.  Arbitrary-precision values (`mpmath.mpf` at 1000 decimal digits) and
Python floats are both modelled as exact rationals (`ℚ`); the claims under
verification are explicitly stated "under exact arithmetic".

Dictionaries used as memo tables are modelled as partial maps
(`key → Option value`); dictionaries used as bottom-up layers, which by
construction only ever store non-zero values, are modelled as total
functions with absent keys reading as `0` (membership coincides with
having a non-zero value).
-/

namespace SBP

/-! ## Direct formula evaluator (sbp_implementation.py) -/

/-- Source: sbp_implementation.py, `prob`.  One summand of the
inclusion-exclusion sum, at index `j`:
`(-1)**(j-k) * binomial(j,k) * binomial(m,j) * binomial(n,j) * factorial(j)
 * ((m-j)**(n-j) if n-j > 0 else 1)`. -/
def probTerm (m n k j : ℕ) : ℚ :=
  (-1 : ℚ) ^ (j - k) * (Nat.choose j k : ℚ) * (Nat.choose m j : ℚ) *
    (Nat.choose n j : ℚ) * (Nat.factorial j : ℚ) *
    (if 0 < n - j then ((m : ℚ) - (j : ℚ)) ^ (n - j) else 1)

/-- Source: sbp_implementation.py, `prob(m, n, k)`: the loop
`for j in range(k_int, n_int + 1)` accumulates the summands in exact
arithmetic and the result is `sum / m**n`.  The function performs no
argument validation; for `k > n` the range is empty and the sum is `0`. -/
def prob (m n k : ℕ) : ℚ :=
  (∑ j ∈ Finset.Icc k n, probTerm m n k j) / (m : ℚ) ^ n

/-! ## Occupancy recurrence T (sbp_r1_recurrence_memoization.py) -/

/-- The invalid-state test of `T` (and of `P`):
`j < 0 or k < 0 or n < 2*j + k or m < j + k`. -/
abbrev Tinvalid (j k n m : ℤ) : Prop :=
  j < 0 ∨ k < 0 ∨ n < 2 * j + k ∨ m < j + k

/-- Source: sbp_r1_recurrence_memoization.py, `T(j, k, n, m, memo)`, with
the memo table erased (memoization is value-transparent; `Tmem` below models
the table, and `Tmem_sound` proves the two agree). -/
def T (j k n m : ℤ) : ℚ :=
  if h1 : Tinvalid j k n m then 0
  else if h2 : j = 0 ∧ k = 0 ∧ n = 0 then 1
  else
    (j : ℚ) * T j k (n - 1) m + ((k : ℚ) + 1) * T (j - 1) (k + 1) (n - 1) m +
      ((m : ℚ) - (j : ℚ) - (k : ℚ) + 1) * T j (k - 1) (n - 1) m
termination_by n.toNat
decreasing_by
  all_goals simp only [Tinvalid, not_or, not_lt] at h1; omega

/-- Memo table of `T` and `P`: a Python dict keyed by the 4-tuple
`(j, k, n, m)`, as a partial map. -/
def Memo4 : Type := ℤ × ℤ × ℤ × ℤ → Option ℚ

/-- Dict insertion `memo[key] = value` for `Memo4`. -/
def memoInsert4 (t : Memo4) (q : ℤ × ℤ × ℤ × ℤ) (v : ℚ) : Memo4 :=
  fun r => if r = q then some v else t r

/-- The fresh dict `memo = {}`. -/
def emptyMemo4 : Memo4 := fun _ => none

/-- Source: sbp_r1_recurrence_memoization.py, `T(j, k, n, m, memo)`, with
the memo dict made explicit.  Faithful to the source order: the membership
test `key in memo` runs first; an invalid state or the base state returns
early without writing to the dict; only a recurrence result is stored
(`memo[key] = result`). -/
def Tmem (j k n m : ℤ) (memo : Memo4) : ℚ × Memo4 :=
  match memo (j, k, n, m) with
  | some v => (v, memo)
  | none =>
    if h1 : Tinvalid j k n m then (0, memo)
    else if h2 : j = 0 ∧ k = 0 ∧ n = 0 then (1, memo)
    else
      let r1 := Tmem j k (n - 1) m memo
      let r2 := Tmem (j - 1) (k + 1) (n - 1) m r1.2
      let r3 := Tmem j (k - 1) (n - 1) m r2.2
      let v := (j : ℚ) * r1.1 + ((k : ℚ) + 1) * r2.1 +
        ((m : ℚ) - (j : ℚ) - (k : ℚ) + 1) * r3.1
      (v, memoInsert4 r3.2 (j, k, n, m) v)
termination_by n.toNat
decreasing_by
  all_goals simp only [Tinvalid, not_or, not_lt] at h1; omega

/-- Source: `def T(j, k, n, m, memo=None)` begins with
`if memo is None: memo = {}`: an omitted memo argument allocates a fresh
dict. -/
def Tcall (j k n m : ℤ) (memo : Option Memo4) : ℚ × Memo4 :=
  Tmem j k n m (memo.getD emptyMemo4)

/-- Source: sbp_r1_recurrence_memoization.py, `prob_r1(m, n)`: the loop
`for j in range(1, n//2 + 1): N = fadd(N, T(j, 0, n, m, memo))` with a
single shared memo dict created fresh at the top of the call. -/
def prob_r1_run (m n : ℕ) : ℚ × Memo4 :=
  (List.range (n / 2)).foldl
    (fun (acc : ℚ × Memo4) (i : ℕ) =>
      let r := Tmem ((i : ℤ) + 1) 0 (n : ℤ) (m : ℤ) acc.2
      (acc.1 + r.1, r.2))
    (0, emptyMemo4)

/-- Source: sbp_r1_recurrence_memoization.py, `prob_r1(m, n)`; the final
result is `N / m**n`. -/
def prob_r1 (m n : ℕ) : ℚ := (prob_r1_run m n).1 / (m : ℚ) ^ n

/-! ## Occupancy recurrence, bottom-up (sbp_r1_recurrence_bottomup.py) -/

/-- Source: sbp_r1_recurrence_bottomup.py, the rolling layers of
`T_bottomup(n_target, m)`.  Layer `0` is the initial dict `{(0, 0): 1}`;
layer `n+1` is built by the loop `for j in range(0, n//2 + 1): for k in
range(0, min(n, m) + 1)` skipping states with `n < 2*j + k or m < j + k`,
reading the three predecessor entries from layer `n` (an absent key
contributes `0`; the `j > 0` and `k > 0` pre-tests of terms 2 and 3 are
subsumed because layer functions vanish at negative coordinates). -/
def T_layer (m : ℤ) : ℕ → ℤ × ℤ → ℚ
  | 0, p => if p = (0, 0) then 1 else 0
  | nn + 1, (j, k) =>
    if 0 ≤ j ∧ j ≤ ((nn : ℤ) + 1) / 2 ∧ 0 ≤ k ∧ k ≤ min ((nn : ℤ) + 1) m ∧
        ¬(((nn : ℤ) + 1) < 2 * j + k ∨ m < j + k) then
      (j : ℚ) * T_layer m nn (j, k) + ((k : ℚ) + 1) * T_layer m nn (j - 1, k + 1) +
        ((m : ℚ) - (j : ℚ) - (k : ℚ) + 1) * T_layer m nn (j, k - 1)
    else 0

/-- Source: sbp_r1_recurrence_bottomup.py, `T_bottomup(n_target, m)` returns
the dict `curr` after the loop `for n in range(1, n_target + 1)`.  When
`n_target = 0` the loop body never runs and the returned `curr` is the empty
dict initialised before the loop, not the base layer. -/
def T_bottomup (n_target : ℕ) (m : ℤ) : ℤ × ℤ → ℚ :=
  if n_target = 0 then fun _ => 0 else T_layer m n_target

/-- Source: sbp_r1_recurrence_bottomup.py, `prob_r1_bottomup(m, n)`: sums
`T_values[(j, 0)]` over `j in range(1, n//2 + 1)` (skipping absent keys,
which read as `0`), then divides by `m**n`. -/
def prob_r1_bottomup (m n : ℕ) : ℚ :=
  (∑ j ∈ Finset.Icc 1 (n / 2), T_bottomup n (m : ℤ) ((j : ℤ), 0)) / (m : ℚ) ^ n

/-! ## Probability recurrence P (sbp_r2_probability_recurrence_memoization_float.py) -/

/-- Source: sbp_r2_probability_recurrence_memoization_float.py,
`P(j, k, n, m, memo)` with the memo table erased; Python floats modelled as
exact rationals.  Same validity and base cases as `T`; the recurrence result
is `(1/m) * (j*P(j,k,n-1,m) + (k+1)*P(j-1,k+1,n-1,m) + (m-j-k+1)*P(j,k-1,n-1,m))`. -/
def P (j k n m : ℤ) : ℚ :=
  if h1 : Tinvalid j k n m then 0
  else if h2 : j = 0 ∧ k = 0 ∧ n = 0 then 1
  else
    (1 / (m : ℚ)) *
      ((j : ℚ) * P j k (n - 1) m + ((k : ℚ) + 1) * P (j - 1) (k + 1) (n - 1) m +
        ((m : ℚ) - (j : ℚ) - (k : ℚ) + 1) * P j (k - 1) (n - 1) m)
termination_by n.toNat
decreasing_by
  all_goals simp only [Tinvalid, not_or, not_lt] at h1; omega

/-- Source: sbp_r2_probability_recurrence_memoization_float.py,
`P(j, k, n, m, memo)` with the memo dict explicit; same structure as
`Tmem`. -/
def Pmem (j k n m : ℤ) (memo : Memo4) : ℚ × Memo4 :=
  match memo (j, k, n, m) with
  | some v => (v, memo)
  | none =>
    if h1 : Tinvalid j k n m then (0, memo)
    else if h2 : j = 0 ∧ k = 0 ∧ n = 0 then (1, memo)
    else
      let r1 := Pmem j k (n - 1) m memo
      let r2 := Pmem (j - 1) (k + 1) (n - 1) m r1.2
      let r3 := Pmem j (k - 1) (n - 1) m r2.2
      let v := (1 / (m : ℚ)) *
        ((j : ℚ) * r1.1 + ((k : ℚ) + 1) * r2.1 +
          ((m : ℚ) - (j : ℚ) - (k : ℚ) + 1) * r3.1)
      (v, memoInsert4 r3.2 (j, k, n, m) v)
termination_by n.toNat
decreasing_by
  all_goals simp only [Tinvalid, not_or, not_lt] at h1; omega

/-- Source: `def P(j, k, n, m, memo=None)` begins with
`if memo is None: memo = {}`. -/
def Pcall (j k n m : ℤ) (memo : Option Memo4) : ℚ × Memo4 :=
  Pmem j k n m (memo.getD emptyMemo4)

/-- Source: sbp_r2_probability_recurrence_memoization_float.py,
`prob_r2_float(m, n)`: `result += P(j, 0, n, m, memo)` for
`j in range(1, n//2 + 1)` with one shared memo dict; no final division
(the `1/m` factors are folded into the recurrence). -/
def prob_r2_float_run (m n : ℕ) : ℚ × Memo4 :=
  (List.range (n / 2)).foldl
    (fun (acc : ℚ × Memo4) (i : ℕ) =>
      let r := Pmem ((i : ℤ) + 1) 0 (n : ℤ) (m : ℤ) acc.2
      (acc.1 + r.1, r.2))
    (0, emptyMemo4)

/-- Source: sbp_r2_probability_recurrence_memoization_float.py,
`prob_r2_float(m, n)`. -/
def prob_r2_float (m n : ℕ) : ℚ := (prob_r2_float_run m n).1

/-! ## Probability recurrence, bottom-up (sbp_r2_recurrence_bottomup_float.py) -/

/-- Source: sbp_r2_recurrence_bottomup_float.py, the rolling layers of
`P_bottomup(n_target, m)`.  Unlike `T_layer` the validity test of the loop
is only `n < 2*j + k` — the `m < j + k` test is omitted in the source. -/
def P_layer (m : ℤ) : ℕ → ℤ × ℤ → ℚ
  | 0, p => if p = (0, 0) then 1 else 0
  | nn + 1, (j, k) =>
    if 0 ≤ j ∧ j ≤ ((nn : ℤ) + 1) / 2 ∧ 0 ≤ k ∧ k ≤ min ((nn : ℤ) + 1) m ∧
        ¬(((nn : ℤ) + 1) < 2 * j + k) then
      (1 / (m : ℚ)) *
        ((j : ℚ) * P_layer m nn (j, k) + ((k : ℚ) + 1) * P_layer m nn (j - 1, k + 1) +
          ((m : ℚ) - (j : ℚ) - (k : ℚ) + 1) * P_layer m nn (j, k - 1))
    else 0

/-- Source: sbp_r2_recurrence_bottomup_float.py, `P_bottomup(n_target, m)`
returns `curr` after the layer loop; for `n_target = 0` that is the empty
dict initialised before the loop. -/
def P_bottomup (n_target : ℕ) (m : ℤ) : ℤ × ℤ → ℚ :=
  if n_target = 0 then fun _ => 0 else P_layer m n_target

/-- Source: sbp_r2_recurrence_bottomup_float.py,
`prob_r2_bottomup_float(m, n)`: sums `P_values[(j, 0)]` over
`j in range(1, n//2 + 1)`, absent keys reading as `0`. -/
def prob_r2_bottomup_float (m n : ℕ) : ℚ :=
  ∑ j ∈ Finset.Icc 1 (n / 2), P_bottomup n (m : ℤ) ((j : ℤ), 0)

/-! ## Associated Stirling engine (sbp_r3_assoc_stirling_memoization.py) -/

/-- The invalid-state test of `assoc_stirling`:
`(n <= 0 and k > 0) or (n > 0 and k <= 0) or (n < 2*k)`. -/
abbrev Sinvalid (n k : ℤ) : Prop :=
  (n ≤ 0 ∧ 0 < k) ∨ (0 < n ∧ k ≤ 0) ∨ n < 2 * k

/-- Source: sbp_r3_assoc_stirling_memoization.py, `assoc_stirling(n, k, memo)`
with the memo table erased.  On arguments with `n ≤ 0` and `k < 0` that pass
the invalid-state test (for example `(n, k) = (-2, -1)`) the Python recursion
does not terminate; no such argument is reachable from `prob_r3_memo`, and
this embedding returns `0` there (the final branch). -/
def assoc_stirling (n k : ℤ) : ℚ :=
  if h1 : Sinvalid n k then 0
  else if h2 : n = 0 ∧ k = 0 then 1
  else if h3 : 0 < n then
    (k : ℚ) * assoc_stirling (n - 1) k + ((n : ℚ) - 1) * assoc_stirling (n - 2) (k - 1)
  else 0
termination_by n.toNat
decreasing_by
  all_goals omega

/-- Memo table of `assoc_stirling`: a dict keyed by `(n, k)`. -/
def Memo2 : Type := ℤ × ℤ → Option ℚ

/-- Dict insertion `memo[(n, k)] = value` for `Memo2`. -/
def memoInsert2 (t : Memo2) (q : ℤ × ℤ) (v : ℚ) : Memo2 :=
  fun r => if r = q then some v else t r

/-- The fresh dict `memo = {}`. -/
def emptyMemo2 : Memo2 := fun _ => none

/-- Source: sbp_r3_assoc_stirling_memoization.py, `assoc_stirling(n, k, memo)`
with the memo dict explicit.  The membership test `(n, k) in memo` runs
first; invalid and base states return early without writing; only a
recurrence result is stored.  The divergence note on `assoc_stirling`
applies to the final branch here too. -/
def Smem (n k : ℤ) (memo : Memo2) : ℚ × Memo2 :=
  match memo (n, k) with
  | some v => (v, memo)
  | none =>
    if h1 : Sinvalid n k then (0, memo)
    else if h2 : n = 0 ∧ k = 0 then (1, memo)
    else if h3 : 0 < n then
      let r1 := Smem (n - 1) k memo
      let r2 := Smem (n - 2) (k - 1) r1.2
      let v := (k : ℚ) * r1.1 + ((n : ℚ) - 1) * r2.1
      (v, memoInsert2 r2.2 (n, k) v)
    else (0, memo)
termination_by n.toNat
decreasing_by
  all_goals omega

/-- Source: `def assoc_stirling(n, k, memo=None)`.  The body begins with the
membership test `(n, k) in memo`; when the `memo` argument is omitted it is
`None` and that test raises `TypeError` before any other statement (there is
no `if memo is None` guard, unlike `T` and `P`).  The raised error is
modelled as `Except.error`. -/
def Scall (n k : ℤ) (memo : Option Memo2) : Except Unit (ℚ × Memo2) :=
  match memo with
  | none => Except.error ()
  | some t => Except.ok (Smem n k t)

/-- Source: sbp_r3_assoc_stirling_memoization.py, `prob_r3_memo(m, n)`:
`memo = {}` is allocated once, then for `k in range(1, n//2 + 1)` the value
`assoc_stirling(n, k, memo)` is computed (always passing the dict, hence
through the `Except.ok` branch of `Scall`) and, when non-zero,
`binomial(m, k) * factorial(k) * S(n, k)` is added to the total. -/
def prob_r3_memo_run (m n : ℕ) : ℚ × Memo2 :=
  (List.range (n / 2)).foldl
    (fun (acc : ℚ × Memo2) (i : ℕ) =>
      let r := Smem (n : ℤ) ((i : ℤ) + 1) acc.2
      (if r.1 ≠ 0 then
          acc.1 + (Nat.choose m (i + 1) : ℚ) * (Nat.factorial (i + 1) : ℚ) * r.1
        else acc.1, r.2))
    (0, emptyMemo2)

/-- Source: sbp_r3_assoc_stirling_memoization.py, `prob_r3_memo(m, n)`;
the result is `total / m**n`. -/
def prob_r3_memo (m n : ℕ) : ℚ := (prob_r3_memo_run m n).1 / (m : ℚ) ^ n

/-! ## Associated Stirling, bottom-up (sbp_r3_assoc_stirling_bottomup.py) -/

/-- Source: sbp_r3_assoc_stirling_bottomup.py, the rolling layers of
`assoc_stirling_bottomup(n_target)`.  Layer `0` is `{0: 1}`, layer `1` is
the empty dict, and layer `n ≥ 2` is built by the loop
`for k in range(1, n//2 + 1): if n < 2*k: continue` from layers `n-1`
(term `k * S(n-1, k)`) and `n-2` (term `(n-1) * S(n-2, k-1)`), absent keys
reading as `0`. -/
def S_layer : ℕ → ℤ → ℚ
  | 0, k => if k = 0 then 1 else 0
  | 1, _ => 0
  | nn + 2, k =>
    if 1 ≤ k ∧ k ≤ ((nn : ℤ) + 2) / 2 ∧ ¬(((nn : ℤ) + 2) < 2 * k) then
      (k : ℚ) * S_layer (nn + 1) k + (((nn : ℚ) + 2) - 1) * S_layer nn (k - 1)
    else 0

/-- Source: sbp_r3_assoc_stirling_bottomup.py, `assoc_stirling_bottomup(n_target)`:
returns `{0: 1}` for `n_target = 0`; otherwise runs the loop from `n = 2`
and returns `prev1 if n_target >= 2 else prev2` — so for `n_target = 1` it
returns `prev2`, which is still the `n = 0` layer `{0: 1}`. -/
def assoc_stirling_bottomup (n_target : ℕ) : ℤ → ℚ :=
  if n_target = 0 then S_layer 0
  else if 2 ≤ n_target then S_layer n_target
  else S_layer 0

/-- Source: sbp_r3_assoc_stirling_bottomup.py, `prob_r3_bottomup(m, n)`:
for `k in range(1, n//2 + 1)`, if `k` is a key of the returned dict
(equivalently, reads as a non-zero value), adds
`binomial(m, k) * factorial(k) * stirling_val`; the result is divided by
`m**n`. -/
def prob_r3_bottomup (m n : ℕ) : ℚ :=
  (∑ k ∈ Finset.Icc 1 (n / 2),
      if assoc_stirling_bottomup n (k : ℤ) ≠ 0 then
        (Nat.choose m k : ℚ) * (Nat.factorial k : ℚ) * assoc_stirling_bottomup n (k : ℤ)
      else 0) / (m : ℚ) ^ n

/-! ## Mathematical helpers (not from the source)

Reference combinatorial quantities used to relate the five engines:
the falling factorial and the 2-associated Stirling numbers of the second
kind as natural numbers. -/

/-- Falling factorial `m * (m-1) * ... * (m-t+1)` over `ℚ`. -/
def ffQ (m : ℤ) : ℕ → ℚ
  | 0 => 1
  | t + 1 => ffQ m t * ((m : ℚ) - (t : ℚ))

/-- The 2-associated Stirling number of the second kind: partitions of `n`
labelled items into `k` blocks, each of size at least 2.  Satisfies
`stir2 n k = k * stir2 (n-1) k + (n-1) * stir2 (n-2) (k-1)`. -/
def stir2 : ℕ → ℕ → ℕ
  | 0, 0 => 1
  | 0, _ + 1 => 0
  | _ + 1, 0 => 0
  | nn + 1, kk + 1 =>
    if nn + 1 < 2 * (kk + 1) then 0
    else (kk + 1) * stir2 nn (kk + 1) + nn * stir2 (nn - 1) kk
termination_by n _ => n

/-- Memo-table soundness invariant for `Tmem`: every stored value is the
pure `T` value of its key. -/
def Memo4InvT (t : Memo4) : Prop :=
  ∀ q v, t q = some v → v = T q.1 q.2.1 q.2.2.1 q.2.2.2

/-- Memo-table soundness invariant for `Pmem`. -/
def Memo4InvP (t : Memo4) : Prop :=
  ∀ q v, t q = some v → v = P q.1 q.2.1 q.2.2.1 q.2.2.2

/-- Memo-table soundness invariant for `Smem`. -/
def Memo2InvS (t : Memo2) : Prop :=
  ∀ q v, t q = some v → v = assoc_stirling q.1 q.2

/-- The direct formula written out exactly as the specification words it:
`prob = m^-n · Σ_{j=k}^{n} (-1)^{j-k} · C(j,k) · C(m,j) · C(n,j) · j! ·
(m-j)^(n-j)`, where `(m-j)^(n-j)` is defined as exactly `1` whenever the
exponent `n-j` is `0`, regardless of base.  Modelled from the spec, for
comparison with `prob`. -/
def prob_formula_spec (m n k : ℕ) : ℚ :=
  (1 / (m : ℚ) ^ n) *
    ∑ j ∈ Finset.Icc k n,
      (-1 : ℚ) ^ (j - k) * (Nat.choose j k : ℚ) * (Nat.choose m j : ℚ) *
        (Nat.choose n j : ℚ) * (Nat.factorial j : ℚ) *
        (if n - j = 0 then 1 else ((m : ℚ) - (j : ℚ)) ^ (n - j))

end SBP

namespace SBP

/-! ## Branch lemmas for the recursive definitions -/

theorem T_of_invalid {j k n m : ℤ} (h : Tinvalid j k n m) : T j k n m = 0 := by
  rw [T]
  exact dif_pos h

theorem T_of_base {j k n m : ℤ} (h1 : ¬Tinvalid j k n m) (h2 : j = 0 ∧ k = 0 ∧ n = 0) :
    T j k n m = 1 := by
  conv_lhs => rw [T]
  rw [dif_neg h1, dif_pos h2]

theorem T_of_rec {j k n m : ℤ} (h1 : ¬Tinvalid j k n m) (h2 : ¬(j = 0 ∧ k = 0 ∧ n = 0)) :
    T j k n m =
      (j : ℚ) * T j k (n - 1) m + ((k : ℚ) + 1) * T (j - 1) (k + 1) (n - 1) m +
        ((m : ℚ) - (j : ℚ) - (k : ℚ) + 1) * T j (k - 1) (n - 1) m := by
  conv_lhs => rw [T]
  rw [dif_neg h1, dif_neg h2]

theorem P_of_invalid {j k n m : ℤ} (h : Tinvalid j k n m) : P j k n m = 0 := by
  rw [P]
  exact dif_pos h

theorem P_of_base {j k n m : ℤ} (h1 : ¬Tinvalid j k n m) (h2 : j = 0 ∧ k = 0 ∧ n = 0) :
    P j k n m = 1 := by
  conv_lhs => rw [P]
  rw [dif_neg h1, dif_pos h2]

theorem P_of_rec {j k n m : ℤ} (h1 : ¬Tinvalid j k n m) (h2 : ¬(j = 0 ∧ k = 0 ∧ n = 0)) :
    P j k n m =
      (1 / (m : ℚ)) *
        ((j : ℚ) * P j k (n - 1) m + ((k : ℚ) + 1) * P (j - 1) (k + 1) (n - 1) m +
          ((m : ℚ) - (j : ℚ) - (k : ℚ) + 1) * P j (k - 1) (n - 1) m) := by
  conv_lhs => rw [P]
  rw [dif_neg h1, dif_neg h2]

theorem S_of_invalid {n k : ℤ} (h : Sinvalid n k) : assoc_stirling n k = 0 := by
  rw [assoc_stirling]
  exact dif_pos h

theorem S_of_base {n k : ℤ} (h1 : ¬Sinvalid n k) (h2 : n = 0 ∧ k = 0) :
    assoc_stirling n k = 1 := by
  conv_lhs => rw [assoc_stirling]
  rw [dif_neg h1, dif_pos h2]

theorem S_of_rec {n k : ℤ} (h1 : ¬Sinvalid n k) (h2 : ¬(n = 0 ∧ k = 0)) (h3 : 0 < n) :
    assoc_stirling n k =
      (k : ℚ) * assoc_stirling (n - 1) k + ((n : ℚ) - 1) * assoc_stirling (n - 2) (k - 1) := by
  conv_lhs => rw [assoc_stirling]
  rw [dif_neg h1, dif_neg h2, dif_pos h3]

/-- A state that is neither invalid nor the base state has `n ≥ 1`. -/
theorem T_rec_pos {j k n m : ℤ} (h1 : ¬Tinvalid j k n m) (h2 : ¬(j = 0 ∧ k = 0 ∧ n = 0)) :
    1 ≤ n ∧ 0 ≤ j ∧ 0 ≤ k ∧ 2 * j + k ≤ n ∧ j + k ≤ m := by
  simp only [Tinvalid, not_or, not_lt] at h1
  obtain ⟨hj, hk, hn, hm⟩ := h1
  refine ⟨?_, by omega, by omega, by omega, by omega⟩
  by_contra hlt
  exact h2 ⟨by omega, by omega, by omega⟩

/-! ## Basic facts about stir2 and ffQ -/

theorem stir2_zero_left (k : ℕ) : stir2 0 k = if k = 0 then 1 else 0 := by
  match k with
  | 0 => simp [stir2]
  | kk + 1 => simp [stir2]

theorem stir2_right_zero (n : ℕ) : stir2 n 0 = if n = 0 then 1 else 0 := by
  match n with
  | 0 => simp [stir2]
  | nn + 1 => simp [stir2]

theorem stir2_of_lt {n k : ℕ} (h : n < 2 * k) : stir2 n k = 0 := by
  match n, k with
  | 0, 0 => omega
  | 0, kk + 1 => simp [stir2]
  | nn + 1, 0 => omega
  | nn + 1, kk + 1 =>
    rw [stir2]
    simp only [if_pos h]

theorem stir2_rec (nn kk : ℕ) (h : 2 * (kk + 1) ≤ nn + 1) :
    stir2 (nn + 1) (kk + 1) = (kk + 1) * stir2 nn (kk + 1) + nn * stir2 (nn - 1) kk := by
  rw [stir2]
  simp only [if_neg (by omega : ¬(nn + 1 < 2 * (kk + 1)))]

theorem ffQ_zero (m : ℤ) : ffQ m 0 = 1 := rfl

theorem ffQ_succ (m : ℤ) (t : ℕ) : ffQ m (t + 1) = ffQ m t * ((m : ℚ) - (t : ℚ)) := rfl

theorem ffQ_eq_zero {m : ℤ} (h0 : 0 ≤ m) : ∀ {t : ℕ}, m < (t : ℤ) → ffQ m t = 0 := by
  intro t
  induction t with
  | zero => intro h; omega
  | succ t ih =>
    intro h
    rw [ffQ_succ]
    rcases lt_or_eq_of_le (by omega : m ≤ (t : ℤ)) with hlt | heq
    · rw [ih hlt, zero_mul]
    · have : (m : ℚ) = (t : ℚ) := by exact_mod_cast congrArg Int.cast heq
      rw [this, sub_self, mul_zero]

theorem ffQ_add (m : ℤ) (t s : ℕ) : ffQ m (t + s) = ffQ m t * ffQ (m - t) s := by
  induction s with
  | zero => rw [ffQ_zero, mul_one]; rfl
  | succ s ih =>
    have h1 : t + (s + 1) = (t + s) + 1 := by omega
    rw [h1, ffQ_succ, ih, ffQ_succ, mul_assoc]
    congr 1
    congr 1
    push_cast
    ring

theorem ffQ_eq_descFactorial (m t : ℕ) : ffQ (m : ℤ) t = (Nat.descFactorial m t : ℚ) := by
  induction t with
  | zero => rfl
  | succ t ih =>
    rw [ffQ_succ, ih, Nat.descFactorial_succ]
    rcases lt_or_le t m with h | h
    · push_cast [Nat.cast_sub h.le]
      ring
    · have h0 : m - t = 0 := by omega
      rw [h0]
      rcases lt_or_eq_of_le h with h2 | h2
      · rw [Nat.descFactorial_eq_zero_iff_lt.2 h2]
        push_cast
        ring
      · subst h2
        push_cast
        ring

theorem choose_mul_factorial_eq_ffQ (m t : ℕ) :
    (Nat.choose m t : ℚ) * (Nat.factorial t : ℚ) = ffQ (m : ℤ) t := by
  rw [ffQ_eq_descFactorial, Nat.descFactorial_eq_factorial_mul_choose]
  push_cast
  ring

end SBP
namespace SBP

/-! ## assoc_stirling agrees with the reference stir2 on natural arguments -/

theorem assoc_stirling_eq_stir2 (n k : ℕ) :
    assoc_stirling (n : ℤ) (k : ℤ) = (stir2 n k : ℚ) := by
  have H : ∀ (N : ℕ) (n k : ℕ), n ≤ N → assoc_stirling (n : ℤ) (k : ℤ) = (stir2 n k : ℚ) := by
    intro N
    induction N with
    | zero =>
      intro n k hn
      have hn0 : n = 0 := by omega
      subst hn0
      match k with
      | 0 =>
        rw [S_of_base (by simp only [Sinvalid]; omega) (by norm_num)]
        rw [stir2_zero_left]
        norm_num
      | kk + 1 =>
        rw [S_of_invalid (by simp only [Sinvalid]; omega)]
        rw [stir2_zero_left]
        norm_num
    | succ N ih =>
      intro n k hn
      match n, k with
      | 0, 0 =>
        rw [S_of_base (by simp only [Sinvalid]; omega) (by norm_num)]
        rw [stir2_zero_left]
        norm_num
      | 0, kk + 1 =>
        rw [S_of_invalid (by simp only [Sinvalid]; omega)]
        rw [stir2_zero_left]
        norm_num
      | nn + 1, 0 =>
        rw [S_of_invalid (by simp only [Sinvalid]; omega)]
        rw [stir2_right_zero]
        norm_num
      | nn + 1, kk + 1 =>
        push_cast
        by_cases hlt : nn + 1 < 2 * (kk + 1)
        · rw [S_of_invalid (by simp only [Sinvalid]; omega)]
          rw [stir2_of_lt hlt]
          norm_num
        · have hnn : 1 ≤ nn := by omega
          rw [S_of_rec (by simp only [Sinvalid]; omega) (by omega) (by omega)]
          have c1 : ((nn : ℤ) + 1) - 1 = ((nn : ℕ) : ℤ) := by omega
          have c2 : ((nn : ℤ) + 1) - 2 = ((nn - 1 : ℕ) : ℤ) := by omega
          have c3 : ((kk : ℤ) + 1) - 1 = ((kk : ℕ) : ℤ) := by omega
          rw [c1, c2, c3]
          have e1 := ih nn (kk + 1) (by omega)
          push_cast at e1
          have e2 := ih (nn - 1) kk (by omega)
          rw [e1, e2]
          rw [stir2_rec nn kk (by omega)]
          push_cast
          ring
  exact H n n k le_rfl

/-! ## Nonnegativity and the unconditional recurrence of T -/

theorem T_nonneg (j k n m : ℤ) : 0 ≤ T j k n m := by
  have H : ∀ (N : ℕ) (j k n m : ℤ), n.toNat ≤ N → 0 ≤ T j k n m := by
    intro N
    induction N with
    | zero =>
      intro j k n m hN
      by_cases h1 : Tinvalid j k n m
      · rw [T_of_invalid h1]
      · by_cases h2 : j = 0 ∧ k = 0 ∧ n = 0
        · rw [T_of_base h1 h2]
          norm_num
        · exfalso
          have := T_rec_pos h1 h2
          omega
    | succ N ih =>
      intro j k n m hN
      by_cases h1 : Tinvalid j k n m
      · rw [T_of_invalid h1]
      · by_cases h2 : j = 0 ∧ k = 0 ∧ n = 0
        · rw [T_of_base h1 h2]
          norm_num
        · obtain ⟨hn1, hj, hk, h2jk, hjk⟩ := T_rec_pos h1 h2
          rw [T_of_rec h1 h2]
          have e1 := ih j k (n - 1) m (by omega)
          have e2 := ih (j - 1) (k + 1) (n - 1) m (by omega)
          have e3 := ih j (k - 1) (n - 1) m (by omega)
          have c1 : (0 : ℚ) ≤ (j : ℚ) := by exact_mod_cast hj
          have c2 : (0 : ℚ) ≤ (k : ℚ) + 1 := by
            have : (0 : ℚ) ≤ (k : ℚ) := by exact_mod_cast hk
            linarith
          have c3 : (0 : ℚ) ≤ (m : ℚ) - (j : ℚ) - (k : ℚ) + 1 := by
            have : (j : ℚ) + (k : ℚ) ≤ (m : ℚ) := by exact_mod_cast hjk
            linarith
          exact add_nonneg (add_nonneg (mul_nonneg c1 e1) (mul_nonneg c2 e2))
            (mul_nonneg c3 e3)
  exact H n.toNat j k n m le_rfl

/-- The T recurrence holds at every state with `j, k ≥ 0` and `n ≥ 1`,
whether or not the state is valid: at an invalid state both sides are 0
(in the boundary case `j + k = m + 1`, the third coefficient vanishes). -/
theorem T_rec_general {j k n m : ℤ} (hj : 0 ≤ j) (hk : 0 ≤ k) (hn : 1 ≤ n) :
    T j k n m =
      (j : ℚ) * T j k (n - 1) m + ((k : ℚ) + 1) * T (j - 1) (k + 1) (n - 1) m +
        ((m : ℚ) - (j : ℚ) - (k : ℚ) + 1) * T j (k - 1) (n - 1) m := by
  by_cases h1 : Tinvalid j k n m
  · rw [T_of_invalid h1]
    rcases h1 with h | h | h | h
    · omega
    · omega
    · rw [T_of_invalid (by simp only [Tinvalid]; omega),
        T_of_invalid (by simp only [Tinvalid]; omega),
        T_of_invalid (by simp only [Tinvalid]; omega)]
      ring
    · rw [T_of_invalid (by simp only [Tinvalid]; omega),
        T_of_invalid (by simp only [Tinvalid]; omega)]
      by_cases hc : m < j + k - 1
      · rw [T_of_invalid (by simp only [Tinvalid]; omega)]
        ring
      · have hm : m = j + k - 1 := by omega
        have : (m : ℚ) - (j : ℚ) - (k : ℚ) + 1 = 0 := by
          have : ((m : ℤ) : ℚ) = ((j + k - 1 : ℤ) : ℚ) := by exact_mod_cast congrArg Int.cast hm
          push_cast at this
          linarith
        rw [this]
        ring
  · exact T_of_rec h1 (by intro hh; omega)

/-- Same as `T_rec_general`, for the probability recurrence `P`. -/
theorem P_rec_general {j k n m : ℤ} (hj : 0 ≤ j) (hk : 0 ≤ k) (hn : 1 ≤ n) :
    P j k n m =
      (1 / (m : ℚ)) *
        ((j : ℚ) * P j k (n - 1) m + ((k : ℚ) + 1) * P (j - 1) (k + 1) (n - 1) m +
          ((m : ℚ) - (j : ℚ) - (k : ℚ) + 1) * P j (k - 1) (n - 1) m) := by
  by_cases h1 : Tinvalid j k n m
  · rw [P_of_invalid h1]
    rcases h1 with h | h | h | h
    · omega
    · omega
    · rw [P_of_invalid (by simp only [Tinvalid]; omega),
        P_of_invalid (by simp only [Tinvalid]; omega),
        P_of_invalid (by simp only [Tinvalid]; omega)]
      ring
    · rw [P_of_invalid (by simp only [Tinvalid]; omega),
        P_of_invalid (by simp only [Tinvalid]; omega)]
      by_cases hc : m < j + k - 1
      · rw [P_of_invalid (by simp only [Tinvalid]; omega)]
        ring
      · have hm : m = j + k - 1 := by omega
        have : (m : ℚ) - (j : ℚ) - (k : ℚ) + 1 = 0 := by
          have : ((m : ℤ) : ℚ) = ((j + k - 1 : ℤ) : ℚ) := by exact_mod_cast congrArg Int.cast hm
          push_cast at this
          linarith
        rw [this]
        ring
  · exact P_of_rec h1 (by intro hh; omega)

end SBP
namespace SBP

/-! ## Cast-level combinatorial identities -/

theorem chooseQ_succ_succ (a b : ℕ) :
    (Nat.choose (a + 1) (b + 1) : ℚ) = (Nat.choose a b : ℚ) + (Nat.choose a (b + 1) : ℚ) := by
  rw [Nat.choose_succ_succ]
  push_cast
  ring

theorem chooseQ_succ_right (a b : ℕ) (h : b ≤ a) :
    ((b : ℚ) + 1) * (Nat.choose a (b + 1) : ℚ) = ((a : ℚ) - (b : ℚ)) * (Nat.choose a b : ℚ) := by
  have hq : ((Nat.choose a (b + 1) * (b + 1) : ℕ) : ℚ) =
      ((Nat.choose a b * (a - b) : ℕ) : ℚ) := by
    rw [Nat.choose_succ_right_eq]
  push_cast [Nat.cast_sub h] at hq
  linarith [hq]

theorem stir2Q_rec (b jj : ℕ) (h : 2 * (jj + 1) ≤ b + 2) :
    (stir2 (b + 2) (jj + 1) : ℚ) =
      ((jj : ℚ) + 1) * (stir2 (b + 1) (jj + 1) : ℚ) + ((b : ℚ) + 1) * (stir2 b jj : ℚ) := by
  have hrec := stir2_rec (b + 1) jj (by omega)
  rw [show b + 1 + 1 = b + 2 by omega, Nat.add_sub_cancel] at hrec
  rw [hrec]
  push_cast
  ring

/-! ## The closed form of T -/

/-- Closed form at `n = 0`. -/
theorem T_closed_base (m : ℤ) (hm : 0 ≤ m) (j k : ℕ) :
    T (j : ℤ) (k : ℤ) ((0 : ℕ) : ℤ) m =
      ffQ m (j + k) * (Nat.choose 0 k : ℚ) * (stir2 (0 - k) j : ℚ) := by
  match j, k with
  | 0, 0 =>
    rw [T_of_base (by simp only [Tinvalid]; omega) (by norm_num)]
    simp [ffQ_zero, stir2_zero_left]
  | 0, kk + 1 =>
    rw [T_of_invalid (by simp only [Tinvalid]; omega)]
    rw [Nat.choose_eq_zero_of_lt (by omega)]
    norm_num
  | jj + 1, k =>
    rw [T_of_invalid (by simp only [Tinvalid]; omega)]
    rw [show (0 : ℕ) - k = 0 by omega, stir2_zero_left]
    norm_num

theorem T_closed_form (m : ℤ) (hm : 0 ≤ m) (n j k : ℕ) :
    T (j : ℤ) (k : ℤ) (n : ℤ) m =
      ffQ m (j + k) * (Nat.choose n k : ℚ) * (stir2 (n - k) j : ℚ) := by
  have H : ∀ (N : ℕ) (n j k : ℕ), n ≤ N →
      T (j : ℤ) (k : ℤ) (n : ℤ) m =
        ffQ m (j + k) * (Nat.choose n k : ℚ) * (stir2 (n - k) j : ℚ) := by
    intro N
    induction N with
    | zero =>
      intro n j k hn
      have hn0 : n = 0 := by omega
      subst hn0
      exact T_closed_base m hm j k
    | succ N ih =>
      intro n j k hn
      by_cases hn0 : n = 0
      · subst hn0
        exact T_closed_base m hm j k
      · have hn1 : 1 ≤ n := by omega
        by_cases hkn : n < k
        · rw [T_of_invalid (by simp only [Tinvalid]; omega)]
          rw [Nat.choose_eq_zero_of_lt hkn]
          norm_num
        · push_neg at hkn
          by_cases hval1 : n < 2 * j + k
          · have hj1 : 1 ≤ j := by omega
            rw [T_of_invalid (by simp only [Tinvalid]; omega)]
            rw [stir2_of_lt (by omega : n - k < 2 * j)]
            norm_num
          · push_neg at hval1
            by_cases hval2 : m < (j : ℤ) + (k : ℤ)
            · rw [T_of_invalid (by simp only [Tinvalid]; omega)]
              rw [ffQ_eq_zero hm (by omega)]
              norm_num
            · push_neg at hval2
              have hnotinv : ¬Tinvalid (j : ℤ) (k : ℤ) (n : ℤ) m := by
                simp only [Tinvalid]
                push_neg
                refine ⟨by omega, by omega, by omega, by omega⟩
              have hnotbase : ¬((j : ℤ) = 0 ∧ (k : ℤ) = 0 ∧ (n : ℤ) = 0) := by
                intro hh
                have : n = 0 := by exact_mod_cast hh.2.2
                omega
              rw [T_of_rec hnotinv hnotbase]
              rw [show ((n : ℤ) - 1) = ((n - 1 : ℕ) : ℤ) by omega]
              match j, k with
              | 0, 0 =>
                have z2 : T (((0 : ℕ) : ℤ) - 1) (((0 : ℕ) : ℤ) + 1) ((n - 1 : ℕ) : ℤ) m = 0 :=
                  T_of_invalid (by simp only [Tinvalid]; omega)
                have z3 : T ((0 : ℕ) : ℤ) (((0 : ℕ) : ℤ) - 1) ((n - 1 : ℕ) : ℤ) m = 0 :=
                  T_of_invalid (by simp only [Tinvalid]; omega)
                rw [z2, z3]
                rw [show n - 0 = n by omega, stir2_right_zero, if_neg hn0]
                push_cast
                ring
              | jj + 1, 0 =>
                have z3 : T ((jj + 1 : ℕ) : ℤ) (((0 : ℕ) : ℤ) - 1) ((n - 1 : ℕ) : ℤ) m = 0 :=
                  T_of_invalid (by simp only [Tinvalid]; omega)
                rw [z3]
                obtain ⟨b, rfl⟩ : ∃ b, n = b + 2 := ⟨n - 2, by omega⟩
                have e1 := ih (b + 2 - 1) (jj + 1) 0 (by omega)
                have e2 := ih (b + 2 - 1) jj 1 (by omega)
                rw [show ((jj + 1 : ℕ) : ℤ) - 1 = ((jj : ℕ) : ℤ) by omega,
                  show ((0 : ℕ) : ℤ) + 1 = ((1 : ℕ) : ℤ) by omega]
                rw [e1, e2]
                rw [show b + 2 - 1 = b + 1 by omega, show b + 1 - 0 = b + 1 by omega,
                  show b + 2 - 0 = b + 2 by omega, show b + 1 - 1 = b by omega]
                rw [show jj + 1 + 0 = jj + 1 by omega, show jj + 0 + 1 = jj + 1 by omega]
                rw [stir2Q_rec b jj (by omega)]
                rw [Nat.choose_zero_right, Nat.choose_zero_right, Nat.choose_one_right]
                push_cast
                ring
              | 0, kk + 1 =>
                have z2 : T (((0 : ℕ) : ℤ) - 1) (((kk + 1 : ℕ) : ℤ) + 1) ((n - 1 : ℕ) : ℤ) m = 0 :=
                  T_of_invalid (by simp only [Tinvalid]; omega)
                rw [z2]
                have e3 := ih (n - 1) 0 kk (by omega)
                rw [show ((kk + 1 : ℕ) : ℤ) - 1 = ((kk : ℕ) : ℤ) by omega]
                rw [e3]
                rcases Nat.eq_or_lt_of_le hkn with hnk | hnk
                · -- n = k + 1 + ... here n = kk + 1: every person a singleton
                  have hnkk : n = kk + 1 := by omega
                  subst hnkk
                  rw [show kk + 1 - 1 = kk by omega, show kk - kk = 0 by omega,
                    show kk + 1 - (kk + 1) = 0 by omega]
                  rw [stir2_zero_left, if_pos rfl]
                  rw [Nat.choose_self, Nat.choose_self]
                  rw [show (0 : ℕ) + (kk + 1) = kk + 1 by omega, show (0 : ℕ) + kk = kk by omega]
                  rw [ffQ_succ]
                  push_cast
                  ring
                · -- k < n: both sides vanish through stir2 (n - k) 0 = 0
                  rw [show n - 1 - kk = n - (kk + 1) by omega]
                  rw [stir2_right_zero, if_neg (by omega : ¬n - (kk + 1) = 0)]
                  push_cast
                  ring
              | jj + 1, kk + 1 =>
                obtain ⟨b, rfl⟩ : ∃ b, n = kk + 1 + (b + 2) := ⟨n - kk - 3, by omega⟩
                have e1 := ih (kk + 1 + (b + 2) - 1) (jj + 1) (kk + 1) (by omega)
                have e2 := ih (kk + 1 + (b + 2) - 1) jj (kk + 2) (by omega)
                have e3 := ih (kk + 1 + (b + 2) - 1) (jj + 1) kk (by omega)
                rw [show ((jj + 1 : ℕ) : ℤ) - 1 = ((jj : ℕ) : ℤ) by omega,
                  show ((kk + 1 : ℕ) : ℤ) + 1 = ((kk + 2 : ℕ) : ℤ) by omega,
                  show ((kk + 1 : ℕ) : ℤ) - 1 = ((kk : ℕ) : ℤ) by omega]
                rw [e1, e2, e3]
                rw [show kk + 1 + (b + 2) - 1 = kk + b + 2 by omega,
                  show kk + b + 2 - (kk + 1) = b + 1 by omega,
                  show kk + b + 2 - (kk + 2) = b by omega,
                  show kk + b + 2 - kk = b + 2 by omega,
                  show kk + 1 + (b + 2) - (kk + 1) = b + 2 by omega,
                  show kk + 1 + (b + 2) = kk + b + 3 by omega,
                  show jj + 1 + (kk + 1) = jj + kk + 1 + 1 by omega,
                  show jj + (kk + 2) = jj + kk + 1 + 1 by omega,
                  show jj + 1 + kk = jj + kk + 1 by omega]
                rw [ffQ_succ m (jj + kk + 1)]
                rw [show kk + b + 3 = (kk + b + 2) + 1 by omega]
                rw [chooseQ_succ_succ (kk + b + 2) kk]
                have ecsr := chooseQ_succ_right (kk + b + 2) (kk + 1) (by omega)
                rw [show kk + 1 + 1 = kk + 2 by omega] at ecsr
                have esr := stir2Q_rec b jj (by omega)
                push_cast at ecsr esr ⊢
                linear_combination
                  (ffQ m (jj + kk + 1) * ((m : ℚ) - ((jj : ℚ) + (kk : ℚ) + 1)) *
                    (stir2 b jj : ℚ)) * ecsr -
                  (ffQ m (jj + kk + 1) * ((m : ℚ) - ((jj : ℚ) + (kk : ℚ) + 1)) *
                    (Nat.choose (kk + b + 2) (kk + 1) : ℚ)) * esr
  exact H n n j k le_rfl

end SBP
namespace SBP

/-! ## Totality: the T values at level n sum to m^n -/

/-- Reindexing of the second recurrence term over the full box. -/
theorem B_reindex (m : ℤ) (n : ℕ) :
    (∑ j ∈ Finset.range (n + 2), ∑ k ∈ Finset.range (n + 2),
        ((k : ℚ) + 1) * T ((j : ℤ) - 1) ((k : ℤ) + 1) (n : ℤ) m)
      = ∑ j ∈ Finset.range (n + 2), ∑ k ∈ Finset.range (n + 2),
          (k : ℚ) * T (j : ℤ) (k : ℤ) (n : ℤ) m := by
  have inner : ∀ z : ℤ,
      (∑ k ∈ Finset.range (n + 2), ((k : ℚ) + 1) * T z ((k : ℤ) + 1) (n : ℤ) m)
        = ∑ k ∈ Finset.range (n + 2), (k : ℚ) * T z (k : ℤ) (n : ℤ) m := by
    intro z
    have h1 : (∑ k ∈ Finset.range (n + 3), (k : ℚ) * T z (k : ℤ) (n : ℤ) m)
        = ∑ k ∈ Finset.range (n + 2), (k : ℚ) * T z (k : ℤ) (n : ℤ) m := by
      rw [Finset.sum_range_succ]
      rw [T_of_invalid (by simp only [Tinvalid]; omega)]
      simp
    rw [← h1, Finset.sum_range_succ' (fun k => (k : ℚ) * T z (k : ℤ) (n : ℤ) m) (n + 2)]
    push_cast
    norm_num
  calc (∑ j ∈ Finset.range (n + 2), ∑ k ∈ Finset.range (n + 2),
        ((k : ℚ) + 1) * T ((j : ℤ) - 1) ((k : ℤ) + 1) (n : ℤ) m)
      = ∑ j ∈ Finset.range (n + 2), ∑ k ∈ Finset.range (n + 2),
          (k : ℚ) * T ((j : ℤ) - 1) (k : ℤ) (n : ℤ) m := by
        exact Finset.sum_congr rfl fun j hj => inner ((j : ℤ) - 1)
    _ = ∑ j ∈ Finset.range (n + 2), ∑ k ∈ Finset.range (n + 2),
          (k : ℚ) * T (j : ℤ) (k : ℤ) (n : ℤ) m := by
        rw [Finset.sum_range_succ' (fun j => ∑ k ∈ Finset.range (n + 2),
          (k : ℚ) * T ((j : ℤ) - 1) (k : ℤ) (n : ℤ) m) (n + 1)]
        have hq0 : (∑ k ∈ Finset.range (n + 2),
            (k : ℚ) * T (((0 : ℕ) : ℤ) - 1) (k : ℤ) (n : ℤ) m) = 0 := by
          refine Finset.sum_eq_zero fun k hk => ?_
          rw [T_of_invalid (by simp only [Tinvalid]; omega)]
          ring
        rw [hq0, add_zero]
        have hqs : ∀ j : ℕ, (∑ k ∈ Finset.range (n + 2),
            (k : ℚ) * T (((j + 1 : ℕ) : ℤ) - 1) (k : ℤ) (n : ℤ) m)
              = ∑ k ∈ Finset.range (n + 2), (k : ℚ) * T ((j : ℕ) : ℤ) (k : ℤ) (n : ℤ) m := by
          intro j
          refine Finset.sum_congr rfl fun k hk => ?_
          rw [show ((j + 1 : ℕ) : ℤ) - 1 = ((j : ℕ) : ℤ) by omega]
        rw [Finset.sum_congr rfl fun j hj => hqs j]
        rw [Finset.sum_range_succ (fun j => ∑ k ∈ Finset.range (n + 2),
          (k : ℚ) * T ((j : ℕ) : ℤ) (k : ℤ) (n : ℤ) m) (n + 1)]
        have hlast : (∑ k ∈ Finset.range (n + 2),
            (k : ℚ) * T (((n + 1 : ℕ)) : ℤ) (k : ℤ) (n : ℤ) m) = 0 := by
          refine Finset.sum_eq_zero fun k hk => ?_
          rw [T_of_invalid (by simp only [Tinvalid]; omega)]
          ring
        rw [hlast, add_zero]

/-- Reindexing of the third recurrence term over the full box. -/
theorem C_reindex (m : ℤ) (n : ℕ) :
    (∑ j ∈ Finset.range (n + 2), ∑ k ∈ Finset.range (n + 2),
        ((m : ℚ) - (j : ℚ) - (k : ℚ) + 1) * T (j : ℤ) ((k : ℤ) - 1) (n : ℤ) m)
      = ∑ j ∈ Finset.range (n + 2), ∑ k ∈ Finset.range (n + 2),
          ((m : ℚ) - (j : ℚ) - (k : ℚ)) * T (j : ℤ) (k : ℤ) (n : ℤ) m := by
  refine Finset.sum_congr rfl fun j hj => ?_
  have h1 : (∑ k ∈ Finset.range (n + 3),
      ((m : ℚ) - (j : ℚ) - (k : ℚ) + 1) * T (j : ℤ) ((k : ℤ) - 1) (n : ℤ) m)
        = ∑ k ∈ Finset.range (n + 2),
            ((m : ℚ) - (j : ℚ) - (k : ℚ) + 1) * T (j : ℤ) ((k : ℤ) - 1) (n : ℤ) m := by
    rw [Finset.sum_range_succ]
    rw [T_of_invalid (by simp only [Tinvalid]; omega)]
    simp
  rw [← h1, Finset.sum_range_succ' (fun k =>
    ((m : ℚ) - (j : ℚ) - (k : ℚ) + 1) * T (j : ℤ) ((k : ℤ) - 1) (n : ℤ) m) (n + 2)]
  have hz : ((m : ℚ) - (j : ℚ) - ((0 : ℕ) : ℚ) + 1) * T (j : ℤ) (((0 : ℕ) : ℤ) - 1) (n : ℤ) m
      = 0 := by
    rw [T_of_invalid (by simp only [Tinvalid]; omega)]
    ring
  rw [hz, add_zero]
  refine Finset.sum_congr rfl fun k hk => ?_
  rw [show ((k + 1 : ℕ) : ℤ) - 1 = ((k : ℕ) : ℤ) by omega]
  push_cast
  ring

/-- Total count: the level-n occupancy numbers sum to `m ^ n`. -/
theorem T_total (m : ℤ) (hm : 0 ≤ m) (n : ℕ) :
    (∑ j ∈ Finset.range (n + 1), ∑ k ∈ Finset.range (n + 1),
        T (j : ℤ) (k : ℤ) (n : ℤ) m)
      = (m : ℚ) ^ n := by
  induction n with
  | zero =>
    rw [Finset.sum_range_one, Finset.sum_range_one]
    rw [T_of_base (by simp only [Tinvalid]; omega) (by norm_num)]
    norm_num
  | succ n ih =>
    have step1 : (∑ j ∈ Finset.range (n + 2), ∑ k ∈ Finset.range (n + 2),
        T (j : ℤ) (k : ℤ) ((n + 1 : ℕ) : ℤ) m)
          = ∑ j ∈ Finset.range (n + 2), ∑ k ∈ Finset.range (n + 2),
              ((j : ℚ) * T (j : ℤ) (k : ℤ) (n : ℤ) m
                + ((k : ℚ) + 1) * T ((j : ℤ) - 1) ((k : ℤ) + 1) (n : ℤ) m
                + ((m : ℚ) - (j : ℚ) - (k : ℚ) + 1) * T (j : ℤ) ((k : ℤ) - 1) (n : ℤ) m) := by
      refine Finset.sum_congr rfl fun j hj => Finset.sum_congr rfl fun k hk => ?_
      rw [T_rec_general (by omega) (by omega) (by omega)]
      rw [show ((n + 1 : ℕ) : ℤ) - 1 = (n : ℤ) by omega]
      push_cast
      ring
    rw [step1]
    have step2 : (∑ j ∈ Finset.range (n + 2), ∑ k ∈ Finset.range (n + 2),
        ((j : ℚ) * T (j : ℤ) (k : ℤ) (n : ℤ) m
          + ((k : ℚ) + 1) * T ((j : ℤ) - 1) ((k : ℤ) + 1) (n : ℤ) m
          + ((m : ℚ) - (j : ℚ) - (k : ℚ) + 1) * T (j : ℤ) ((k : ℤ) - 1) (n : ℤ) m))
        = (∑ j ∈ Finset.range (n + 2), ∑ k ∈ Finset.range (n + 2),
            (j : ℚ) * T (j : ℤ) (k : ℤ) (n : ℤ) m)
          + (∑ j ∈ Finset.range (n + 2), ∑ k ∈ Finset.range (n + 2),
              ((k : ℚ) + 1) * T ((j : ℤ) - 1) ((k : ℤ) + 1) (n : ℤ) m)
          + (∑ j ∈ Finset.range (n + 2), ∑ k ∈ Finset.range (n + 2),
              ((m : ℚ) - (j : ℚ) - (k : ℚ) + 1) * T (j : ℤ) ((k : ℤ) - 1) (n : ℤ) m) := by
      rw [← Finset.sum_add_distrib, ← Finset.sum_add_distrib]
      refine Finset.sum_congr rfl fun j hj => ?_
      rw [← Finset.sum_add_distrib, ← Finset.sum_add_distrib]
    rw [step2, B_reindex, C_reindex]
    have step3 : (∑ j ∈ Finset.range (n + 2), ∑ k ∈ Finset.range (n + 2),
        (j : ℚ) * T (j : ℤ) (k : ℤ) (n : ℤ) m)
          + (∑ j ∈ Finset.range (n + 2), ∑ k ∈ Finset.range (n + 2),
              (k : ℚ) * T (j : ℤ) (k : ℤ) (n : ℤ) m)
          + (∑ j ∈ Finset.range (n + 2), ∑ k ∈ Finset.range (n + 2),
              ((m : ℚ) - (j : ℚ) - (k : ℚ)) * T (j : ℤ) (k : ℤ) (n : ℤ) m)
        = (m : ℚ) * ∑ j ∈ Finset.range (n + 2), ∑ k ∈ Finset.range (n + 2),
            T (j : ℤ) (k : ℤ) (n : ℤ) m := by
      rw [Finset.mul_sum]
      rw [← Finset.sum_add_distrib, ← Finset.sum_add_distrib]
      refine Finset.sum_congr rfl fun j hj => ?_
      rw [Finset.mul_sum]
      rw [← Finset.sum_add_distrib, ← Finset.sum_add_distrib]
      refine Finset.sum_congr rfl fun k hk => ?_
      ring
    rw [step3]
    have step4 : (∑ j ∈ Finset.range (n + 2), ∑ k ∈ Finset.range (n + 2),
        T (j : ℤ) (k : ℤ) (n : ℤ) m)
          = ∑ j ∈ Finset.range (n + 1), ∑ k ∈ Finset.range (n + 1),
              T (j : ℤ) (k : ℤ) (n : ℤ) m := by
      have hinner : ∀ j : ℕ, (∑ k ∈ Finset.range (n + 2), T (j : ℤ) (k : ℤ) (n : ℤ) m)
          = ∑ k ∈ Finset.range (n + 1), T (j : ℤ) (k : ℤ) (n : ℤ) m := by
        intro j
        rw [Finset.sum_range_succ]
        rw [T_of_invalid (by simp only [Tinvalid]; omega)]
        simp
      rw [Finset.sum_congr rfl fun j hj => hinner j]
      rw [Finset.sum_range_succ (fun j => ∑ k ∈ Finset.range (n + 1),
        T ((j : ℕ) : ℤ) (k : ℤ) (n : ℤ) m) (n + 1)]
      have hlast : (∑ k ∈ Finset.range (n + 1),
          T (((n + 1 : ℕ)) : ℤ) (k : ℤ) (n : ℤ) m) = 0 := by
        refine Finset.sum_eq_zero fun k hk => ?_
        exact T_of_invalid (by simp only [Tinvalid]; omega)
      rw [hlast, add_zero]
    rw [step4, ih]
    ring

end SBP
namespace SBP

/-! ## P equals T normalised by m^n -/

theorem P_eq_T_div (j k n m : ℤ) (hm : 1 ≤ m) :
    P j k n m = T j k n m / (m : ℚ) ^ n := by
  have hmQ : (m : ℚ) ≠ 0 := by
    have : (0 : ℚ) < (m : ℚ) := by exact_mod_cast hm
    linarith
  have H : ∀ (N : ℕ) (j k n : ℤ), n.toNat ≤ N → P j k n m = T j k n m / (m : ℚ) ^ n := by
    intro N
    induction N with
    | zero =>
      intro j k n hN
      by_cases h1 : Tinvalid j k n m
      · rw [P_of_invalid h1, T_of_invalid h1, zero_div]
      · by_cases h2 : j = 0 ∧ k = 0 ∧ n = 0
        · rw [P_of_base h1 h2, T_of_base h1 h2, h2.2.2]
          norm_num
        · exfalso
          have := T_rec_pos h1 h2
          omega
    | succ N ih =>
      intro j k n hN
      by_cases h1 : Tinvalid j k n m
      · rw [P_of_invalid h1, T_of_invalid h1, zero_div]
      · by_cases h2 : j = 0 ∧ k = 0 ∧ n = 0
        · rw [P_of_base h1 h2, T_of_base h1 h2, h2.2.2]
          norm_num
        · obtain ⟨hn1, hj, hk, h2jk, hjk⟩ := T_rec_pos h1 h2
          rw [P_of_rec h1 h2, T_of_rec h1 h2]
          rw [ih j k (n - 1) (by omega), ih (j - 1) (k + 1) (n - 1) (by omega),
            ih j (k - 1) (n - 1) (by omega)]
          have hpow : (m : ℚ) ^ n = (m : ℚ) ^ (n - 1) * (m : ℚ) := by
            rw [← zpow_add_one₀ hmQ (n - 1)]
            norm_num
          have hpne : (m : ℚ) ^ (n - 1) ≠ 0 := zpow_ne_zero _ hmQ
          rw [hpow]
          rw [← mul_div_assoc, ← mul_div_assoc, ← mul_div_assoc, div_add_div_same,
            div_add_div_same, div_mul_div_comm, one_mul,
            mul_comm ((m : ℚ)) ((m : ℚ) ^ (n - 1))]
  exact H n.toNat j k n le_rfl

/-! ## Bounds from totality -/

theorem T_le_pow (m : ℤ) (hm : 0 ≤ m) (n j k : ℕ) :
    T (j : ℤ) (k : ℤ) (n : ℤ) m ≤ (m : ℚ) ^ n := by
  have hpow : (0 : ℚ) ≤ (m : ℚ) ^ n := by
    have : (0 : ℚ) ≤ (m : ℚ) := by exact_mod_cast hm
    positivity
  by_cases hj : j ≤ n
  · by_cases hk : k ≤ n
    · have hkmem : k ∈ Finset.range (n + 1) := Finset.mem_range.2 (by omega)
      have hjmem : j ∈ Finset.range (n + 1) := Finset.mem_range.2 (by omega)
      calc T (j : ℤ) (k : ℤ) (n : ℤ) m
          ≤ ∑ k2 ∈ Finset.range (n + 1), T (j : ℤ) (k2 : ℤ) (n : ℤ) m :=
            Finset.single_le_sum (f := fun k2 : ℕ => T (j : ℤ) (k2 : ℤ) (n : ℤ) m)
              (fun i _ => T_nonneg (j : ℤ) (i : ℤ) (n : ℤ) m) hkmem
        _ ≤ ∑ j2 ∈ Finset.range (n + 1), ∑ k2 ∈ Finset.range (n + 1),
              T (j2 : ℤ) (k2 : ℤ) (n : ℤ) m :=
            Finset.single_le_sum
              (f := fun j2 : ℕ => ∑ k2 ∈ Finset.range (n + 1), T (j2 : ℤ) (k2 : ℤ) (n : ℤ) m)
              (fun i _ => Finset.sum_nonneg fun k2 _ => T_nonneg (i : ℤ) (k2 : ℤ) (n : ℤ) m)
              hjmem
        _ = (m : ℚ) ^ n := T_total m hm n
    · rw [T_of_invalid (by simp only [Tinvalid]; omega)]
      exact hpow
  · rw [T_of_invalid (by simp only [Tinvalid]; omega)]
    exact hpow

theorem sum_Tj0_le (m : ℤ) (hm : 0 ≤ m) (n : ℕ) :
    (∑ j ∈ Finset.Icc 1 (n / 2), T (j : ℤ) 0 (n : ℤ) m) ≤ (m : ℚ) ^ n := by
  calc (∑ j ∈ Finset.Icc 1 (n / 2), T (j : ℤ) 0 (n : ℤ) m)
      ≤ ∑ j ∈ Finset.range (n + 1), T (j : ℤ) 0 (n : ℤ) m := by
        refine Finset.sum_le_sum_of_subset_of_nonneg ?_ ?_
        · intro j hj
          rw [Finset.mem_Icc] at hj
          rw [Finset.mem_range]
          omega
        · intro j _ _
          exact T_nonneg _ _ _ _
    _ ≤ ∑ j ∈ Finset.range (n + 1), ∑ k ∈ Finset.range (n + 1),
          T (j : ℤ) (k : ℤ) (n : ℤ) m := by
        refine Finset.sum_le_sum fun j _ => ?_
        have h0 : T (j : ℤ) (((0 : ℕ) : ℤ)) (n : ℤ) m
            ≤ ∑ k2 ∈ Finset.range (n + 1), T (j : ℤ) (k2 : ℤ) (n : ℤ) m :=
          Finset.single_le_sum (f := fun k2 : ℕ => T (j : ℤ) (k2 : ℤ) (n : ℤ) m)
            (fun i _ => T_nonneg (j : ℤ) (i : ℤ) (n : ℤ) m)
            (Finset.mem_range.2 (by omega : (0 : ℕ) < n + 1))
        rw [Nat.cast_zero] at h0
        exact h0
    _ = (m : ℚ) ^ n := T_total m hm n

theorem sum_Tj0_nonneg (m : ℤ) (n : ℕ) :
    0 ≤ ∑ j ∈ Finset.Icc 1 (n / 2), T (j : ℤ) 0 (n : ℤ) m :=
  Finset.sum_nonneg fun _ _ => T_nonneg _ _ _ _

/-! ## Bottom-up layers agree with the memoized recurrences -/

theorem T_layer_eq (m : ℤ) (hm : 0 ≤ m) (n : ℕ) (p : ℤ × ℤ) :
    T_layer m n p = T p.1 p.2 (n : ℤ) m := by
  induction n generalizing p with
  | zero =>
    obtain ⟨j, k⟩ := p
    simp only [T_layer]
    by_cases hp : (j, k) = ((0 : ℤ), (0 : ℤ))
    · rw [if_pos hp]
      obtain ⟨hj, hk⟩ := Prod.mk.injEq .. ▸ hp
      subst hj
      subst hk
      rw [T_of_base (by simp only [Tinvalid]; omega) (by norm_num)]
    · rw [if_neg hp]
      have hne : ¬(j = 0 ∧ k = 0) := by
        intro hh
        exact hp (by rw [hh.1, hh.2])
      rw [T_of_invalid (by simp only [Tinvalid]; omega)]
  | succ nn ih =>
    obtain ⟨j, k⟩ := p
    simp only [T_layer]
    by_cases hg : 0 ≤ j ∧ j ≤ ((nn : ℤ) + 1) / 2 ∧ 0 ≤ k ∧ k ≤ min ((nn : ℤ) + 1) m ∧
        ¬(((nn : ℤ) + 1) < 2 * j + k ∨ m < j + k)
    · rw [if_pos hg]
      rw [ih (j, k), ih (j - 1, k + 1), ih (j, k - 1)]
      obtain ⟨hj, hj2, hk, hkm, hval⟩ := hg
      rw [T_rec_general (n := ((nn + 1 : ℕ) : ℤ)) hj hk (by push_cast; omega)]
      rw [show ((nn + 1 : ℕ) : ℤ) - 1 = (nn : ℤ) by push_cast; omega]
    · rw [if_neg hg]
      simp only [le_min_iff, not_and, not_le, not_lt, not_or, not_not] at hg
      refine (T_of_invalid ?_).symm
      simp only [Tinvalid]
      push_cast
      omega

theorem P_layer_eq (m : ℤ) (hm : 1 ≤ m) (n : ℕ) (p : ℤ × ℤ) :
    P_layer m n p = P p.1 p.2 (n : ℤ) m := by
  induction n generalizing p with
  | zero =>
    obtain ⟨j, k⟩ := p
    simp only [P_layer]
    by_cases hp : (j, k) = ((0 : ℤ), (0 : ℤ))
    · rw [if_pos hp]
      obtain ⟨hj, hk⟩ := Prod.mk.injEq .. ▸ hp
      subst hj
      subst hk
      rw [P_of_base (by simp only [Tinvalid]; omega) (by norm_num)]
    · rw [if_neg hp]
      have hne : ¬(j = 0 ∧ k = 0) := by
        intro hh
        exact hp (by rw [hh.1, hh.2])
      rw [P_of_invalid (by simp only [Tinvalid]; omega)]
  | succ nn ih =>
    obtain ⟨j, k⟩ := p
    simp only [P_layer]
    by_cases hg : 0 ≤ j ∧ j ≤ ((nn : ℤ) + 1) / 2 ∧ 0 ≤ k ∧ k ≤ min ((nn : ℤ) + 1) m ∧
        ¬(((nn : ℤ) + 1) < 2 * j + k)
    · rw [if_pos hg]
      rw [ih (j, k), ih (j - 1, k + 1), ih (j, k - 1)]
      obtain ⟨hj, hj2, hk, hkm, hval⟩ := hg
      rw [P_rec_general (n := ((nn + 1 : ℕ) : ℤ)) hj hk (by push_cast; omega)]
      rw [show ((nn + 1 : ℕ) : ℤ) - 1 = (nn : ℤ) by push_cast; omega]
    · rw [if_neg hg]
      simp only [le_min_iff, not_and, not_le, not_lt, not_or, not_not] at hg
      refine (P_of_invalid ?_).symm
      simp only [Tinvalid]
      push_cast
      omega

theorem S_layer_eq (n : ℕ) (k : ℤ) (hk : 0 ≤ k) :
    S_layer n k = assoc_stirling (n : ℤ) k := by
  have H : ∀ (N : ℕ) (n : ℕ) (k : ℤ), n ≤ N → 0 ≤ k →
      S_layer n k = assoc_stirling (n : ℤ) k := by
    intro N
    induction N with
    | zero =>
      intro n k hn hk
      have hn0 : n = 0 := by omega
      subst hn0
      simp only [S_layer]
      by_cases hk0 : k = 0
      · rw [if_pos hk0, hk0]
        rw [S_of_base (by simp only [Sinvalid]; omega) (by norm_num)]
      · rw [if_neg hk0]
        rw [S_of_invalid (by simp only [Sinvalid]; omega)]
    | succ N ih =>
      intro n k hn hk
      match n with
      | 0 =>
        simp only [S_layer]
        by_cases hk0 : k = 0
        · rw [if_pos hk0, hk0]
          rw [S_of_base (by simp only [Sinvalid]; omega) (by norm_num)]
        · rw [if_neg hk0]
          rw [S_of_invalid (by simp only [Sinvalid]; omega)]
      | 1 =>
        simp only [S_layer]
        by_cases hk0 : k = 0
        · rw [S_of_invalid (by simp only [Sinvalid]; omega)]
        · rw [S_of_invalid (by simp only [Sinvalid]; omega)]
      | nn + 2 =>
        simp only [S_layer]
        by_cases hg : 1 ≤ k ∧ k ≤ ((nn : ℤ) + 2) / 2 ∧ ¬(((nn : ℤ) + 2) < 2 * k)
        · rw [if_pos hg]
          obtain ⟨hk1, hk2, hk3⟩ := hg
          rw [ih (nn + 1) k (by omega) (by omega), ih nn (k - 1) (by omega) (by omega)]
          rw [S_of_rec (n := ((nn + 2 : ℕ) : ℤ)) (k := k)
            (by simp only [Sinvalid]; push_cast; omega)
            (by push_cast; omega) (by push_cast; omega)]
          rw [show ((nn + 2 : ℕ) : ℤ) - 1 = ((nn + 1 : ℕ) : ℤ) by push_cast; omega,
            show ((nn + 2 : ℕ) : ℤ) - 2 = ((nn : ℕ) : ℤ) by push_cast; omega]
          push_cast
          ring
        · rw [if_neg hg]
          simp only [not_and, not_le, not_lt, not_not] at hg
          refine (S_of_invalid ?_).symm
          simp only [Sinvalid]
          push_cast
          omega
  exact H n n k le_rfl hk

end SBP
namespace SBP

/-! ## Memoization is sound: the threaded versions compute the pure values

The invariant: every entry of the table is the pure value of its key.  A
call with a sound table returns the pure value and leaves a sound table. -/

theorem Tmem_sound (m : ℤ) :
    ∀ (N : ℕ) (j k n : ℤ) (t : Memo4), n.toNat ≤ N → Memo4InvT t →
      (Tmem j k n m t).1 = T j k n m ∧ Memo4InvT (Tmem j k n m t).2 := by
  intro N
  induction N with
  | zero =>
    intro j k n t hN ht
    cases hv : t (j, k, n, m) with
    | some v =>
      have he : Tmem j k n m t = (v, t) := by
        rw [Tmem, hv]
      rw [he]
      exact ⟨ht (j, k, n, m) v hv, ht⟩
    | none =>
      by_cases h1 : Tinvalid j k n m
      · have he : Tmem j k n m t = (0, t) := by
          rw [Tmem, hv]
          rw [dif_pos h1]
        rw [he, T_of_invalid h1]
        exact ⟨rfl, ht⟩
      · by_cases h2 : j = 0 ∧ k = 0 ∧ n = 0
        · have he : Tmem j k n m t = (1, t) := by
            rw [Tmem, hv]
            rw [dif_neg h1, dif_pos h2]
          rw [he, T_of_base h1 h2]
          exact ⟨rfl, ht⟩
        · exfalso
          have := T_rec_pos h1 h2
          omega
  | succ N ih =>
    intro j k n t hN ht
    cases hv : t (j, k, n, m) with
    | some v =>
      have he : Tmem j k n m t = (v, t) := by
        rw [Tmem, hv]
      rw [he]
      exact ⟨ht (j, k, n, m) v hv, ht⟩
    | none =>
      by_cases h1 : Tinvalid j k n m
      · have he : Tmem j k n m t = (0, t) := by
          rw [Tmem, hv]
          rw [dif_pos h1]
        rw [he, T_of_invalid h1]
        exact ⟨rfl, ht⟩
      · by_cases h2 : j = 0 ∧ k = 0 ∧ n = 0
        · have he : Tmem j k n m t = (1, t) := by
            rw [Tmem, hv]
            rw [dif_neg h1, dif_pos h2]
          rw [he, T_of_base h1 h2]
          exact ⟨rfl, ht⟩
        · have hn1 : 1 ≤ n := (T_rec_pos h1 h2).1
          obtain ⟨ihv1, ihi1⟩ := ih j k (n - 1) t (by omega) ht
          obtain ⟨ihv2, ihi2⟩ := ih (j - 1) (k + 1) (n - 1) (Tmem j k (n - 1) m t).2
            (by omega) ihi1
          obtain ⟨ihv3, ihi3⟩ := ih j (k - 1) (n - 1)
            (Tmem (j - 1) (k + 1) (n - 1) m (Tmem j k (n - 1) m t).2).2 (by omega) ihi2
          have he : Tmem j k n m t =
              ((j : ℚ) * (Tmem j k (n - 1) m t).1
                + ((k : ℚ) + 1) * (Tmem (j - 1) (k + 1) (n - 1) m (Tmem j k (n - 1) m t).2).1
                + ((m : ℚ) - (j : ℚ) - (k : ℚ) + 1) *
                    (Tmem j (k - 1) (n - 1) m
                      (Tmem (j - 1) (k + 1) (n - 1) m (Tmem j k (n - 1) m t).2).2).1,
              memoInsert4
                (Tmem j (k - 1) (n - 1) m
                  (Tmem (j - 1) (k + 1) (n - 1) m (Tmem j k (n - 1) m t).2).2).2
                (j, k, n, m)
                ((j : ℚ) * (Tmem j k (n - 1) m t).1
                  + ((k : ℚ) + 1) *
                      (Tmem (j - 1) (k + 1) (n - 1) m (Tmem j k (n - 1) m t).2).1
                  + ((m : ℚ) - (j : ℚ) - (k : ℚ) + 1) *
                      (Tmem j (k - 1) (n - 1) m
                        (Tmem (j - 1) (k + 1) (n - 1) m (Tmem j k (n - 1) m t).2).2).1)) := by
            rw [Tmem, hv]
            rw [dif_neg h1, dif_neg h2]
          rw [he]
          constructor
          · dsimp only
            rw [ihv1, ihv2, ihv3, T_of_rec h1 h2]
          · dsimp only
            intro q w hq
            simp only [memoInsert4] at hq
            by_cases hqkey : q = (j, k, n, m)
            · rw [if_pos hqkey] at hq
              have hw := Option.some.inj hq
              subst hqkey
              rw [← hw, ihv1, ihv2, ihv3]
              exact (T_of_rec h1 h2).symm
            · rw [if_neg hqkey] at hq
              exact ihi3 q w hq

theorem Pmem_sound (m : ℤ) :
    ∀ (N : ℕ) (j k n : ℤ) (t : Memo4), n.toNat ≤ N → Memo4InvP t →
      (Pmem j k n m t).1 = P j k n m ∧ Memo4InvP (Pmem j k n m t).2 := by
  intro N
  induction N with
  | zero =>
    intro j k n t hN ht
    cases hv : t (j, k, n, m) with
    | some v =>
      have he : Pmem j k n m t = (v, t) := by
        rw [Pmem, hv]
      rw [he]
      exact ⟨ht (j, k, n, m) v hv, ht⟩
    | none =>
      by_cases h1 : Tinvalid j k n m
      · have he : Pmem j k n m t = (0, t) := by
          rw [Pmem, hv]
          rw [dif_pos h1]
        rw [he, P_of_invalid h1]
        exact ⟨rfl, ht⟩
      · by_cases h2 : j = 0 ∧ k = 0 ∧ n = 0
        · have he : Pmem j k n m t = (1, t) := by
            rw [Pmem, hv]
            rw [dif_neg h1, dif_pos h2]
          rw [he, P_of_base h1 h2]
          exact ⟨rfl, ht⟩
        · exfalso
          have := T_rec_pos h1 h2
          omega
  | succ N ih =>
    intro j k n t hN ht
    cases hv : t (j, k, n, m) with
    | some v =>
      have he : Pmem j k n m t = (v, t) := by
        rw [Pmem, hv]
      rw [he]
      exact ⟨ht (j, k, n, m) v hv, ht⟩
    | none =>
      by_cases h1 : Tinvalid j k n m
      · have he : Pmem j k n m t = (0, t) := by
          rw [Pmem, hv]
          rw [dif_pos h1]
        rw [he, P_of_invalid h1]
        exact ⟨rfl, ht⟩
      · by_cases h2 : j = 0 ∧ k = 0 ∧ n = 0
        · have he : Pmem j k n m t = (1, t) := by
            rw [Pmem, hv]
            rw [dif_neg h1, dif_pos h2]
          rw [he, P_of_base h1 h2]
          exact ⟨rfl, ht⟩
        · have hn1 : 1 ≤ n := (T_rec_pos h1 h2).1
          obtain ⟨ihv1, ihi1⟩ := ih j k (n - 1) t (by omega) ht
          obtain ⟨ihv2, ihi2⟩ := ih (j - 1) (k + 1) (n - 1) (Pmem j k (n - 1) m t).2
            (by omega) ihi1
          obtain ⟨ihv3, ihi3⟩ := ih j (k - 1) (n - 1)
            (Pmem (j - 1) (k + 1) (n - 1) m (Pmem j k (n - 1) m t).2).2 (by omega) ihi2
          have he : Pmem j k n m t =
              ((1 / (m : ℚ)) *
                ((j : ℚ) * (Pmem j k (n - 1) m t).1
                  + ((k : ℚ) + 1) * (Pmem (j - 1) (k + 1) (n - 1) m (Pmem j k (n - 1) m t).2).1
                  + ((m : ℚ) - (j : ℚ) - (k : ℚ) + 1) *
                      (Pmem j (k - 1) (n - 1) m
                        (Pmem (j - 1) (k + 1) (n - 1) m (Pmem j k (n - 1) m t).2).2).1),
              memoInsert4
                (Pmem j (k - 1) (n - 1) m
                  (Pmem (j - 1) (k + 1) (n - 1) m (Pmem j k (n - 1) m t).2).2).2
                (j, k, n, m)
                ((1 / (m : ℚ)) *
                  ((j : ℚ) * (Pmem j k (n - 1) m t).1
                    + ((k : ℚ) + 1) *
                        (Pmem (j - 1) (k + 1) (n - 1) m (Pmem j k (n - 1) m t).2).1
                    + ((m : ℚ) - (j : ℚ) - (k : ℚ) + 1) *
                        (Pmem j (k - 1) (n - 1) m
                          (Pmem (j - 1) (k + 1) (n - 1) m (Pmem j k (n - 1) m t).2).2).1))) := by
            rw [Pmem, hv]
            rw [dif_neg h1, dif_neg h2]
          rw [he]
          constructor
          · dsimp only
            rw [ihv1, ihv2, ihv3, P_of_rec h1 h2]
          · dsimp only
            intro q w hq
            simp only [memoInsert4] at hq
            by_cases hqkey : q = (j, k, n, m)
            · rw [if_pos hqkey] at hq
              have hw := Option.some.inj hq
              subst hqkey
              rw [← hw, ihv1, ihv2, ihv3]
              exact (P_of_rec h1 h2).symm
            · rw [if_neg hqkey] at hq
              exact ihi3 q w hq

theorem Smem_sound :
    ∀ (N : ℕ) (n k : ℤ) (t : Memo2), n.toNat ≤ N → Memo2InvS t →
      (Smem n k t).1 = assoc_stirling n k ∧ Memo2InvS (Smem n k t).2 := by
  intro N
  induction N with
  | zero =>
    intro n k t hN ht
    cases hv : t (n, k) with
    | some v =>
      have he : Smem n k t = (v, t) := by
        rw [Smem, hv]
      rw [he]
      exact ⟨ht (n, k) v hv, ht⟩
    | none =>
      by_cases h1 : Sinvalid n k
      · have he : Smem n k t = (0, t) := by
          rw [Smem, hv]
          rw [dif_pos h1]
        rw [he, S_of_invalid h1]
        exact ⟨rfl, ht⟩
      · by_cases h2 : n = 0 ∧ k = 0
        · have he : Smem n k t = (1, t) := by
            rw [Smem, hv]
            rw [dif_neg h1, dif_pos h2]
          rw [he, S_of_base h1 h2]
          exact ⟨rfl, ht⟩
        · by_cases h3 : 0 < n
          · omega
          · have he : Smem n k t = (0, t) := by
              rw [Smem, hv]
              rw [dif_neg h1, dif_neg h2, dif_neg h3]
            have hS : assoc_stirling n k = 0 := by
              conv_lhs => rw [assoc_stirling]
              rw [dif_neg h1, dif_neg h2, dif_neg h3]
            rw [he, hS]
            exact ⟨rfl, ht⟩
  | succ N ih =>
    intro n k t hN ht
    cases hv : t (n, k) with
    | some v =>
      have he : Smem n k t = (v, t) := by
        rw [Smem, hv]
      rw [he]
      exact ⟨ht (n, k) v hv, ht⟩
    | none =>
      by_cases h1 : Sinvalid n k
      · have he : Smem n k t = (0, t) := by
          rw [Smem, hv]
          rw [dif_pos h1]
        rw [he, S_of_invalid h1]
        exact ⟨rfl, ht⟩
      · by_cases h2 : n = 0 ∧ k = 0
        · have he : Smem n k t = (1, t) := by
            rw [Smem, hv]
            rw [dif_neg h1, dif_pos h2]
          rw [he, S_of_base h1 h2]
          exact ⟨rfl, ht⟩
        · by_cases h3 : 0 < n
          · obtain ⟨ihv1, ihi1⟩ := ih (n - 1) k t (by omega) ht
            obtain ⟨ihv2, ihi2⟩ := ih (n - 2) (k - 1) (Smem (n - 1) k t).2 (by omega) ihi1
            have he : Smem n k t =
                ((k : ℚ) * (Smem (n - 1) k t).1
                  + ((n : ℚ) - 1) * (Smem (n - 2) (k - 1) (Smem (n - 1) k t).2).1,
                memoInsert2 (Smem (n - 2) (k - 1) (Smem (n - 1) k t).2).2 (n, k)
                  ((k : ℚ) * (Smem (n - 1) k t).1
                    + ((n : ℚ) - 1) * (Smem (n - 2) (k - 1) (Smem (n - 1) k t).2).1)) := by
              rw [Smem, hv]
              rw [dif_neg h1, dif_neg h2, dif_pos h3]
            rw [he]
            constructor
            · dsimp only
              rw [ihv1, ihv2, S_of_rec h1 h2 h3]
            · dsimp only
              intro q w hq
              simp only [memoInsert2] at hq
              by_cases hqkey : q = (n, k)
              · rw [if_pos hqkey] at hq
                have hw := Option.some.inj hq
                subst hqkey
                rw [← hw, ihv1, ihv2]
                exact (S_of_rec h1 h2 h3).symm
              · rw [if_neg hqkey] at hq
                exact ihi2 q w hq
          · have he : Smem n k t = (0, t) := by
              rw [Smem, hv]
              rw [dif_neg h1, dif_neg h2, dif_neg h3]
            have hS : assoc_stirling n k = 0 := by
              conv_lhs => rw [assoc_stirling]
              rw [dif_neg h1, dif_neg h2, dif_neg h3]
            rw [he, hS]
            exact ⟨rfl, ht⟩

end SBP
namespace SBP

/-! ## The assemblers compute the pure sums -/

theorem emptyMemo4_invT : Memo4InvT emptyMemo4 := by
  intro q v hq
  simp [emptyMemo4] at hq

theorem emptyMemo4_invP : Memo4InvP emptyMemo4 := by
  intro q v hq
  simp [emptyMemo4] at hq

theorem emptyMemo2_invS : Memo2InvS emptyMemo2 := by
  intro q v hq
  simp [emptyMemo2] at hq

theorem prob_r1_run_fold (m n : ℕ) :
    ∀ (c : ℕ) (a : ℚ) (t : Memo4), Memo4InvT t →
      (((List.range c).foldl
          (fun (acc : ℚ × Memo4) (i : ℕ) =>
            let r := Tmem ((i : ℤ) + 1) 0 (n : ℤ) (m : ℤ) acc.2
            (acc.1 + r.1, r.2)) (a, t)).1
        = a + ∑ i ∈ Finset.range c, T ((i : ℤ) + 1) 0 (n : ℤ) (m : ℤ))
      ∧ Memo4InvT (((List.range c).foldl
          (fun (acc : ℚ × Memo4) (i : ℕ) =>
            let r := Tmem ((i : ℤ) + 1) 0 (n : ℤ) (m : ℤ) acc.2
            (acc.1 + r.1, r.2)) (a, t)).2) := by
  intro c
  induction c with
  | zero =>
    intro a t ht
    simp [ht]
  | succ c ih =>
    intro a t ht
    rw [List.range_succ, List.foldl_append]
    obtain ⟨ihv, ihi⟩ := ih a t ht
    obtain ⟨hv, hi⟩ := Tmem_sound (m : ℤ) ((n : ℤ)).toNat ((c : ℤ) + 1) 0 (n : ℤ)
      (((List.range c).foldl
        (fun (acc : ℚ × Memo4) (i : ℕ) =>
          let r := Tmem ((i : ℤ) + 1) 0 (n : ℤ) (m : ℤ) acc.2
          (acc.1 + r.1, r.2)) (a, t)).2) le_rfl ihi
    simp only [List.foldl_cons, List.foldl_nil]
    constructor
    · rw [Finset.sum_range_succ, ihv, hv]
      ring
    · exact hi

theorem prob_r1_eq_sum (m n : ℕ) :
    prob_r1 m n = (∑ j ∈ Finset.Icc 1 (n / 2), T (j : ℤ) 0 (n : ℤ) (m : ℤ)) / (m : ℚ) ^ n := by
  have h := (prob_r1_run_fold m n (n / 2) 0 emptyMemo4 emptyMemo4_invT).1
  rw [prob_r1, prob_r1_run, h]
  rw [← Nat.Ico_succ_right, Finset.sum_Ico_eq_sum_range]
  rw [show n / 2 + 1 - 1 = n / 2 by omega]
  rw [zero_add]
  congr 1
  refine Finset.sum_congr rfl fun i _ => ?_
  rw [show ((1 + i : ℕ) : ℤ) = (i : ℤ) + 1 by push_cast; ring]

theorem prob_r2_run_fold (m n : ℕ) :
    ∀ (c : ℕ) (a : ℚ) (t : Memo4), Memo4InvP t →
      (((List.range c).foldl
          (fun (acc : ℚ × Memo4) (i : ℕ) =>
            let r := Pmem ((i : ℤ) + 1) 0 (n : ℤ) (m : ℤ) acc.2
            (acc.1 + r.1, r.2)) (a, t)).1
        = a + ∑ i ∈ Finset.range c, P ((i : ℤ) + 1) 0 (n : ℤ) (m : ℤ))
      ∧ Memo4InvP (((List.range c).foldl
          (fun (acc : ℚ × Memo4) (i : ℕ) =>
            let r := Pmem ((i : ℤ) + 1) 0 (n : ℤ) (m : ℤ) acc.2
            (acc.1 + r.1, r.2)) (a, t)).2) := by
  intro c
  induction c with
  | zero =>
    intro a t ht
    simp [ht]
  | succ c ih =>
    intro a t ht
    rw [List.range_succ, List.foldl_append]
    obtain ⟨ihv, ihi⟩ := ih a t ht
    obtain ⟨hv, hi⟩ := Pmem_sound (m : ℤ) ((n : ℤ)).toNat ((c : ℤ) + 1) 0 (n : ℤ)
      (((List.range c).foldl
        (fun (acc : ℚ × Memo4) (i : ℕ) =>
          let r := Pmem ((i : ℤ) + 1) 0 (n : ℤ) (m : ℤ) acc.2
          (acc.1 + r.1, r.2)) (a, t)).2) le_rfl ihi
    simp only [List.foldl_cons, List.foldl_nil]
    constructor
    · rw [Finset.sum_range_succ, ihv, hv]
      ring
    · exact hi

theorem prob_r2_float_eq_sum (m n : ℕ) :
    prob_r2_float m n = ∑ j ∈ Finset.Icc 1 (n / 2), P (j : ℤ) 0 (n : ℤ) (m : ℤ) := by
  have h := (prob_r2_run_fold m n (n / 2) 0 emptyMemo4 emptyMemo4_invP).1
  rw [prob_r2_float, prob_r2_float_run, h]
  rw [← Nat.Ico_succ_right, Finset.sum_Ico_eq_sum_range]
  rw [show n / 2 + 1 - 1 = n / 2 by omega]
  rw [zero_add]
  refine Finset.sum_congr rfl fun i _ => ?_
  rw [show ((1 + i : ℕ) : ℤ) = (i : ℤ) + 1 by push_cast; ring]

theorem prob_r3_run_fold (m n : ℕ) :
    ∀ (c : ℕ) (a : ℚ) (t : Memo2), Memo2InvS t →
      (((List.range c).foldl
          (fun (acc : ℚ × Memo2) (i : ℕ) =>
            let r := Smem (n : ℤ) ((i : ℤ) + 1) acc.2
            (if r.1 ≠ 0 then
                acc.1 + (Nat.choose m (i + 1) : ℚ) * (Nat.factorial (i + 1) : ℚ) * r.1
              else acc.1, r.2)) (a, t)).1
        = a + ∑ i ∈ Finset.range c,
            (Nat.choose m (i + 1) : ℚ) * (Nat.factorial (i + 1) : ℚ) *
              assoc_stirling (n : ℤ) ((i : ℤ) + 1))
      ∧ Memo2InvS (((List.range c).foldl
          (fun (acc : ℚ × Memo2) (i : ℕ) =>
            let r := Smem (n : ℤ) ((i : ℤ) + 1) acc.2
            (if r.1 ≠ 0 then
                acc.1 + (Nat.choose m (i + 1) : ℚ) * (Nat.factorial (i + 1) : ℚ) * r.1
              else acc.1, r.2)) (a, t)).2) := by
  intro c
  induction c with
  | zero =>
    intro a t ht
    simp [ht]
  | succ c ih =>
    intro a t ht
    rw [List.range_succ, List.foldl_append]
    obtain ⟨ihv, ihi⟩ := ih a t ht
    obtain ⟨hv, hi⟩ := Smem_sound ((n : ℤ)).toNat (n : ℤ) ((c : ℤ) + 1)
      (((List.range c).foldl
        (fun (acc : ℚ × Memo2) (i : ℕ) =>
          let r := Smem (n : ℤ) ((i : ℤ) + 1) acc.2
          (if r.1 ≠ 0 then
              acc.1 + (Nat.choose m (i + 1) : ℚ) * (Nat.factorial (i + 1) : ℚ) * r.1
            else acc.1, r.2)) (a, t)).2) le_rfl ihi
    simp only [List.foldl_cons, List.foldl_nil]
    constructor
    · rw [Finset.sum_range_succ, ihv]
      by_cases hz : assoc_stirling (n : ℤ) ((c : ℤ) + 1) = 0
      · rw [if_neg (by rw [hv, hz]; simp)]
        rw [hz]
        ring
      · rw [if_pos (by rw [hv]; exact hz)]
        rw [hv]
        ring
    · exact hi

theorem prob_r3_memo_eq_sum (m n : ℕ) :
    prob_r3_memo m n =
      (∑ k ∈ Finset.Icc 1 (n / 2),
        (Nat.choose m k : ℚ) * (Nat.factorial k : ℚ) * assoc_stirling (n : ℤ) (k : ℤ))
        / (m : ℚ) ^ n := by
  have h := (prob_r3_run_fold m n (n / 2) 0 emptyMemo2 emptyMemo2_invS).1
  rw [prob_r3_memo, prob_r3_memo_run, h]
  rw [← Nat.Ico_succ_right, Finset.sum_Ico_eq_sum_range]
  rw [show n / 2 + 1 - 1 = n / 2 by omega]
  rw [zero_add]
  congr 1
  refine Finset.sum_congr rfl fun i _ => ?_
  rw [show 1 + i = i + 1 by omega]
  rw [show ((i + 1 : ℕ) : ℤ) = (i : ℤ) + 1 by push_cast; ring]

theorem prob_r1_bottomup_eq_sum (m n : ℕ) (hm : 1 ≤ m) :
    prob_r1_bottomup m n
      = (∑ j ∈ Finset.Icc 1 (n / 2), T (j : ℤ) 0 (n : ℤ) (m : ℤ)) / (m : ℚ) ^ n := by
  rw [prob_r1_bottomup]
  congr 1
  refine Finset.sum_congr rfl fun j hj => ?_
  rw [Finset.mem_Icc] at hj
  have hn1 : n ≠ 0 := by omega
  rw [T_bottomup, if_neg hn1]
  exact T_layer_eq (m : ℤ) (by omega) n ((j : ℤ), 0)

theorem prob_r2_bottomup_eq_sum (m n : ℕ) (hm : 1 ≤ m) :
    prob_r2_bottomup_float m n
      = ∑ j ∈ Finset.Icc 1 (n / 2), P (j : ℤ) 0 (n : ℤ) (m : ℤ) := by
  rw [prob_r2_bottomup_float]
  refine Finset.sum_congr rfl fun j hj => ?_
  rw [Finset.mem_Icc] at hj
  have hn1 : n ≠ 0 := by omega
  rw [P_bottomup, if_neg hn1]
  exact P_layer_eq (m : ℤ) (by exact_mod_cast hm) n ((j : ℤ), 0)

theorem prob_r3_bottomup_eq_sum (m n : ℕ) :
    prob_r3_bottomup m n =
      (∑ k ∈ Finset.Icc 1 (n / 2),
        (Nat.choose m k : ℚ) * (Nat.factorial k : ℚ) * assoc_stirling (n : ℤ) (k : ℤ))
        / (m : ℚ) ^ n := by
  rw [prob_r3_bottomup]
  congr 1
  refine Finset.sum_congr rfl fun k hk => ?_
  rw [Finset.mem_Icc] at hk
  have hn2 : 2 ≤ n := by omega
  have hb : assoc_stirling_bottomup n (k : ℤ) = assoc_stirling (n : ℤ) (k : ℤ) := by
    rw [assoc_stirling_bottomup, if_neg (by omega), if_pos hn2]
    exact S_layer_eq n (k : ℤ) (by omega)
  rw [hb]
  by_cases hz : assoc_stirling (n : ℤ) (k : ℤ) = 0
  · rw [if_neg (by simp [hz]), hz, mul_zero]
  · rw [if_pos hz]

/-! ## The two recurrence families compute the same sum -/

theorem sum_Tj0_eq_sum_stir (m : ℤ) (hm : 0 ≤ m) (n : ℕ) :
    (∑ j ∈ Finset.Icc 1 (n / 2), T (j : ℤ) 0 (n : ℤ) m)
      = ∑ j ∈ Finset.Icc 1 (n / 2), ffQ m j * (stir2 n j : ℚ) := by
  refine Finset.sum_congr rfl fun j _ => ?_
  have h := T_closed_form m hm n j 0
  rw [Nat.cast_zero] at h
  rw [h]
  simp [Nat.choose_zero_right]

theorem sum_r3_eq_sum_stir (m n : ℕ) :
    (∑ k ∈ Finset.Icc 1 (n / 2),
        (Nat.choose m k : ℚ) * (Nat.factorial k : ℚ) * assoc_stirling (n : ℤ) (k : ℤ))
      = ∑ k ∈ Finset.Icc 1 (n / 2), ffQ (m : ℤ) k * (stir2 n k : ℚ) := by
  refine Finset.sum_congr rfl fun k _ => ?_
  rw [assoc_stirling_eq_stir2, choose_mul_factorial_eq_ffQ]

end SBP
namespace SBP

/-! ## Inclusion-exclusion: the direct formula equals the recurrence sums -/

/-- Totality, rewritten through the closed form of T. -/
theorem pow_eq_sum_ffQ (u : ℤ) (hu : 0 ≤ u) (v : ℕ) :
    (u : ℚ) ^ v = ∑ k ∈ Finset.range (v + 1), ∑ j ∈ Finset.range (v + 1),
      ffQ u (j + k) * (Nat.choose v k : ℚ) * (stir2 (v - k) j : ℚ) := by
  rw [← T_total u hu v, Finset.sum_comm]
  exact Finset.sum_congr rfl fun k _ => Finset.sum_congr rfl fun j _ => T_closed_form u hu v j k

/-- The inclusion-exclusion weight `B(t) = ff(m,t)·C(n,t)·(m-t)^(n-t)` counts
pairs (assignment, designated set of t singleton days): expanding the power
through totality and regrouping gives the binomial transform of the
exact-singleton counts. -/
theorem B_expand (m n t : ℕ) (ht : t ≤ n) :
    ffQ (m : ℤ) t * (Nat.choose n t : ℚ) * ((m : ℚ) - (t : ℚ)) ^ (n - t)
      = ∑ i ∈ Finset.Icc t n, (Nat.choose i t : ℚ) *
          ((Nat.choose n i : ℚ) * ∑ j ∈ Finset.range (n + 1),
            ffQ (m : ℤ) (j + i) * (stir2 (n - i) j : ℚ)) := by
  by_cases htm : t ≤ m
  · have hcast : ((m : ℚ) - (t : ℚ)) = (Int.cast ((m : ℤ) - (t : ℤ)) : ℚ) := by
      push_cast
      ring
    rw [hcast, pow_eq_sum_ffQ ((m : ℤ) - (t : ℤ)) (by omega) (n - t)]
    trans (∑ k ∈ Finset.range (n - t + 1), ∑ j ∈ Finset.range (n - t + 1),
      ffQ (m : ℤ) t * (Nat.choose n t : ℚ) *
        (ffQ ((m : ℤ) - (t : ℤ)) (j + k) * (Nat.choose (n - t) k : ℚ) *
          (stir2 (n - t - k) j : ℚ)))
    · rw [Finset.mul_sum]
      exact Finset.sum_congr rfl fun k _ => Finset.mul_sum _ _ _
    · rw [← Nat.Ico_succ_right, Finset.sum_Ico_eq_sum_range,
        show n + 1 - t = n - t + 1 by omega]
      refine Finset.sum_congr rfl fun k hk => ?_
      rw [Finset.mem_range] at hk
      have hshrink : (∑ j ∈ Finset.range (n + 1),
          ffQ (m : ℤ) (j + (t + k)) * (stir2 (n - (t + k)) j : ℚ))
          = ∑ j ∈ Finset.range (n - t + 1),
              ffQ (m : ℤ) (j + (t + k)) * (stir2 (n - (t + k)) j : ℚ) := by
        symm
        refine Finset.sum_subset (Finset.range_subset.2 (by omega)) fun j hj1 hj2 => ?_
        rw [Finset.mem_range, not_lt] at hj2
        rw [stir2_of_lt (by omega : n - (t + k) < 2 * j)]
        push_cast
        ring
      rw [hshrink, Finset.mul_sum, Finset.mul_sum]
      refine Finset.sum_congr rfl fun j hj => ?_
      rw [Finset.mem_range] at hj
      have hffadd := ffQ_add (m : ℤ) t (j + k)
      have harg : t + (j + k) = j + (t + k) := by omega
      rw [harg] at hffadd
      have hargs : n - t - k = n - (t + k) := by omega
      rw [hargs]
      have hcm : Nat.choose n (t + k) * Nat.choose (t + k) t
          = Nat.choose n t * Nat.choose (n - t) k := by
        rw [Nat.choose_mul (show t + k ≤ n by omega) (show t ≤ t + k by omega)]
        rw [show t + k - t = k by omega]
      have hcmQ : (Nat.choose n (t + k) : ℚ) * (Nat.choose (t + k) t : ℚ)
          = (Nat.choose n t : ℚ) * (Nat.choose (n - t) k : ℚ) := by
        exact_mod_cast congrArg (fun x : ℕ => (x : ℚ)) hcm
      linear_combination
        (-(ffQ (m : ℤ) (j + (t + k)) * (stir2 (n - (t + k)) j : ℚ))) * hcmQ
        - ((Nat.choose n t : ℚ) * (Nat.choose (n - t) k : ℚ) * (stir2 (n - (t + k)) j : ℚ))
          * hffadd
  · push_neg at htm
    rw [ffQ_eq_zero (by omega) (by exact_mod_cast htm)]
    rw [zero_mul, zero_mul]
    symm
    refine Finset.sum_eq_zero fun i hi => ?_
    rw [Finset.mem_Icc] at hi
    have hinner : (∑ j ∈ Finset.range (n + 1),
        ffQ (m : ℤ) (j + i) * (stir2 (n - i) j : ℚ)) = 0 := by
      refine Finset.sum_eq_zero fun j _ => ?_
      rw [ffQ_eq_zero (by omega) (by push_cast; omega), zero_mul]
    rw [hinner, mul_zero, mul_zero]

/-- The ℚ-cast alternating binomial sum. -/
theorem alt_sum_chooseQ (i : ℕ) :
    (∑ t ∈ Finset.range (i + 1), (-1 : ℚ) ^ t * (Nat.choose i t : ℚ))
      = if i = 0 then 1 else 0 := by
  have h := Int.alternating_sum_range_choose (n := i)
  have hq : ((∑ t ∈ Finset.range (i + 1), ((-1) ^ t * Nat.choose i t : ℤ)) : ℚ)
      = ((if i = 0 then 1 else 0 : ℤ) : ℚ) := by
    exact_mod_cast congrArg (fun x : ℤ => (x : ℚ)) h
  push_cast at hq
  rw [hq]

/-- The inclusion-exclusion sum of the direct formula collapses to the
count of assignments with zero singleton days. -/
theorem probSum_eq_stirSum (m n : ℕ) :
    (∑ j ∈ Finset.Icc 0 n, probTerm m n 0 j)
      = ∑ j ∈ Finset.range (n + 1), ffQ (m : ℤ) j * (stir2 n j : ℚ) := by
  have hIcc : Finset.Icc 0 n = Finset.range (n + 1) := by
    ext x
    simp [Nat.lt_succ_iff]
  rw [hIcc]
  have hterm : ∀ t ∈ Finset.range (n + 1), probTerm m n 0 t
      = (-1 : ℚ) ^ t *
          (ffQ (m : ℤ) t * (Nat.choose n t : ℚ) * ((m : ℚ) - (t : ℚ)) ^ (n - t)) := by
    intro t ht
    rw [Finset.mem_range] at ht
    rw [probTerm]
    rw [show (if 0 < n - t then ((m : ℚ) - (t : ℚ)) ^ (n - t) else 1)
        = ((m : ℚ) - (t : ℚ)) ^ (n - t) by
      by_cases hnt : 0 < n - t
      · rw [if_pos hnt]
      · rw [if_neg hnt, show n - t = 0 by omega, pow_zero]]
    rw [Nat.sub_zero, Nat.choose_zero_right]
    have hcf := choose_mul_factorial_eq_ffQ m t
    linear_combination
      ((-1 : ℚ) ^ t * (Nat.choose n t : ℚ) * ((m : ℚ) - (t : ℚ)) ^ (n - t)) * hcf
  rw [Finset.sum_congr rfl hterm]
  rw [Finset.sum_congr rfl (fun t ht => by
    rw [B_expand m n t (by rw [Finset.mem_range] at ht; omega)])]
  have hdist : ∀ t ∈ Finset.range (n + 1),
      ((-1 : ℚ) ^ t * ∑ i ∈ Finset.Icc t n, (Nat.choose i t : ℚ) *
        ((Nat.choose n i : ℚ) * ∑ j ∈ Finset.range (n + 1),
          ffQ (m : ℤ) (j + i) * (stir2 (n - i) j : ℚ)))
      = ∑ i ∈ Finset.Ico t (n + 1), (-1 : ℚ) ^ t * ((Nat.choose i t : ℚ) *
          ((Nat.choose n i : ℚ) * ∑ j ∈ Finset.range (n + 1),
            ffQ (m : ℤ) (j + i) * (stir2 (n - i) j : ℚ))) := by
    intro t _
    rw [Finset.mul_sum]
    refine Finset.sum_congr ?_ fun i _ => rfl
    ext x
    simp [Nat.lt_succ_iff]
  rw [Finset.sum_congr rfl hdist]
  rw [Finset.sum_congr (congrFun Finset.range_eq_Ico (n + 1)) (fun t _ => rfl)]
  rw [Finset.sum_Ico_Ico_comm 0 (n + 1)
    (fun t i => (-1 : ℚ) ^ t * ((Nat.choose i t : ℚ) *
      ((Nat.choose n i : ℚ) * ∑ j ∈ Finset.range (n + 1),
        ffQ (m : ℤ) (j + i) * (stir2 (n - i) j : ℚ))))]
  have hcollapse : ∀ i ∈ Finset.Ico 0 (n + 1),
      (∑ t ∈ Finset.Ico 0 (i + 1), (-1 : ℚ) ^ t * ((Nat.choose i t : ℚ) *
        ((Nat.choose n i : ℚ) * ∑ j ∈ Finset.range (n + 1),
          ffQ (m : ℤ) (j + i) * (stir2 (n - i) j : ℚ))))
      = (if i = 0 then 1 else 0) * ((Nat.choose n i : ℚ) *
          ∑ j ∈ Finset.range (n + 1), ffQ (m : ℤ) (j + i) * (stir2 (n - i) j : ℚ)) := by
    intro i _
    rw [← alt_sum_chooseQ i, Finset.sum_mul]
    refine Finset.sum_congr (congrFun Finset.range_eq_Ico (i + 1)).symm fun t _ => ?_
    ring
  rw [Finset.sum_congr rfl hcollapse]
  rw [Finset.sum_congr (congrFun Finset.range_eq_Ico (n + 1)).symm
    (fun i _ => (rfl : ((if i = 0 then (1 : ℚ) else 0) * ((Nat.choose n i : ℚ) *
      ∑ j ∈ Finset.range (n + 1), ffQ (m : ℤ) (j + i) * (stir2 (n - i) j : ℚ))) = _))]
  rw [Finset.sum_eq_single_of_mem 0 (Finset.mem_range.2 (by omega))
    (fun i _ hi => by rw [if_neg hi, zero_mul])]
  rw [if_pos rfl, one_mul, Nat.choose_zero_right, Nat.cast_one, one_mul]
  refine Finset.sum_congr rfl fun j _ => ?_
  rw [Nat.add_zero, Nat.sub_zero]

/-- For `n ≥ 1` the direct formula evaluates to the common recurrence sum. -/
theorem prob_direct_eq_sum (m n : ℕ) (hn : 1 ≤ n) :
    prob m n 0
      = (∑ j ∈ Finset.Icc 1 (n / 2), ffQ (m : ℤ) j * (stir2 n j : ℚ)) / (m : ℚ) ^ n := by
  rw [prob, probSum_eq_stirSum]
  congr 1
  refine (Finset.sum_subset ?_ ?_).symm
  · intro x hx
    rw [Finset.mem_Icc] at hx
    rw [Finset.mem_range]
    omega
  · intro x hx hnx
    rw [Finset.mem_range] at hx
    rw [Finset.mem_Icc, not_and_or] at hnx
    rcases hnx with h0 | hhigh
    · have hx0 : x = 0 := by omega
      subst hx0
      rw [stir2_right_zero, if_neg (by omega)]
      ring
    · rw [stir2_of_lt (by omega : n < 2 * x)]
      push_cast
      ring

end SBP
namespace SBP

/-! ## Small-input values and bounds of the assemblers -/

theorem Icc_one_empty {n : ℕ} (hn : n ≤ 1) : Finset.Icc 1 (n / 2) = (∅ : Finset ℕ) :=
  Finset.Icc_eq_empty (by omega)

theorem prob_at_zero (m : ℕ) : prob m 0 0 = 1 := by
  simp [prob, probTerm, Finset.Icc_self]

theorem prob_at_one (m : ℕ) : prob m 1 0 = 0 := by
  rw [prob_direct_eq_sum m 1 le_rfl, Icc_one_empty le_rfl]
  simp

theorem prob_r1_small (m n : ℕ) (hn : n ≤ 1) : prob_r1 m n = 0 := by
  rw [prob_r1_eq_sum, Icc_one_empty hn]
  simp

theorem prob_r1_bottomup_small (m n : ℕ) (hn : n ≤ 1) : prob_r1_bottomup m n = 0 := by
  rw [prob_r1_bottomup, Icc_one_empty hn]
  simp

theorem prob_r3_memo_small (m n : ℕ) (hn : n ≤ 1) : prob_r3_memo m n = 0 := by
  rw [prob_r3_memo_eq_sum, Icc_one_empty hn]
  simp

theorem prob_r3_bottomup_small (m n : ℕ) (hn : n ≤ 1) : prob_r3_bottomup m n = 0 := by
  rw [prob_r3_bottomup, Icc_one_empty hn]
  simp

theorem prob_r2_float_small (m n : ℕ) (hn : n ≤ 1) : prob_r2_float m n = 0 := by
  rw [prob_r2_float_eq_sum, Icc_one_empty hn]
  simp

theorem prob_r2_bottomup_small (m n : ℕ) (hn : n ≤ 1) : prob_r2_bottomup_float m n = 0 := by
  rw [prob_r2_bottomup_float, Icc_one_empty hn]
  simp

theorem sum_P_eq_sum_T_div (m n : ℕ) (hm : 1 ≤ m) :
    (∑ j ∈ Finset.Icc 1 (n / 2), P (j : ℤ) 0 (n : ℤ) (m : ℤ))
      = (∑ j ∈ Finset.Icc 1 (n / 2), T (j : ℤ) 0 (n : ℤ) (m : ℤ)) / (m : ℚ) ^ n := by
  rw [Finset.sum_div]
  refine Finset.sum_congr rfl fun j _ => ?_
  rw [P_eq_T_div (j : ℤ) 0 (n : ℤ) (m : ℤ) (by exact_mod_cast hm)]
  rw [zpow_natCast]
  norm_cast

theorem common_bounds (m n : ℕ) (hm : 1 ≤ m) :
    0 ≤ (∑ j ∈ Finset.Icc 1 (n / 2), T (j : ℤ) 0 (n : ℤ) (m : ℤ)) / (m : ℚ) ^ n
      ∧ (∑ j ∈ Finset.Icc 1 (n / 2), T (j : ℤ) 0 (n : ℤ) (m : ℤ)) / (m : ℚ) ^ n ≤ 1 := by
  have hmp : (0 : ℚ) < (m : ℚ) ^ n := by
    have : (0 : ℚ) < (m : ℚ) := by exact_mod_cast hm
    positivity
  constructor
  · exact div_nonneg (sum_Tj0_nonneg (m : ℤ) n) (le_of_lt hmp)
  · rw [div_le_one hmp]
    have h := sum_Tj0_le (m : ℤ) (by omega) n
    exact_mod_cast h

theorem prob_r1_eq_common (m n : ℕ) :
    prob_r1 m n
      = (∑ j ∈ Finset.Icc 1 (n / 2), ffQ (m : ℤ) j * (stir2 n j : ℚ)) / (m : ℚ) ^ n := by
  rw [prob_r1_eq_sum, sum_Tj0_eq_sum_stir (m : ℤ) (by omega) n]

theorem prob_r1_bottomup_eq_common (m n : ℕ) (hm : 1 ≤ m) :
    prob_r1_bottomup m n
      = (∑ j ∈ Finset.Icc 1 (n / 2), ffQ (m : ℤ) j * (stir2 n j : ℚ)) / (m : ℚ) ^ n := by
  rw [prob_r1_bottomup_eq_sum m n hm, sum_Tj0_eq_sum_stir (m : ℤ) (by omega) n]

theorem prob_r3_memo_eq_common (m n : ℕ) :
    prob_r3_memo m n
      = (∑ j ∈ Finset.Icc 1 (n / 2), ffQ (m : ℤ) j * (stir2 n j : ℚ)) / (m : ℚ) ^ n := by
  rw [prob_r3_memo_eq_sum, sum_r3_eq_sum_stir]

theorem prob_r3_bottomup_eq_common (m n : ℕ) :
    prob_r3_bottomup m n
      = (∑ j ∈ Finset.Icc 1 (n / 2), ffQ (m : ℤ) j * (stir2 n j : ℚ)) / (m : ℚ) ^ n := by
  rw [prob_r3_bottomup_eq_sum, sum_r3_eq_sum_stir]

end SBP
namespace SBP

/-! ## Claim theorems -/

/-- C1 counterexample: at `(m, n) = (2, 0)` the direct formula returns `1`
while the memoized T variant returns `0` (its sum starts at `j = 1` and so
misses the empty-assignment state), so the five variants do not all agree
at every `n ≥ 0`. -/
theorem C1_counterexample : prob 2 0 0 = 1 ∧ prob_r1 2 0 = 0 ∧ (1 : ℚ) ≠ 0 :=
  ⟨prob_at_zero 2, prob_r1_small 2 0 (by omega), by norm_num⟩

/-- C1 (amended: for every `m ≥ 1` and `n ≥ 1`; at `n = 0` the direct
formula returns 1 while the four recurrence variants return 0): the five
arbitrary-precision probability functions — `prob(m,n,0)`, `prob_r1`,
`prob_r1_bottomup`, `prob_r3_memo` and `prob_r3_bottomup` — return the same
value under exact arithmetic. -/
theorem C1_five_variants_agree (m n : ℕ) (hm : 1 ≤ m) (hn : 1 ≤ n) :
    prob m n 0 = prob_r1 m n ∧ prob_r1 m n = prob_r1_bottomup m n ∧
      prob_r1 m n = prob_r3_memo m n ∧ prob_r3_memo m n = prob_r3_bottomup m n := by
  refine ⟨?_, ?_, ?_, ?_⟩
  · rw [prob_direct_eq_sum m n hn, prob_r1_eq_common]
  · rw [prob_r1_eq_common, prob_r1_bottomup_eq_common m n hm]
  · rw [prob_r1_eq_common, prob_r3_memo_eq_common]
  · rw [prob_r3_memo_eq_common, prob_r3_bottomup_eq_common]

/-- C1 witness: the five-way agreement at the concrete input `(2, 3)`. -/
theorem C1_witness :
    (1 ≤ 2 ∧ 1 ≤ 3) ∧
      (prob 2 3 0 = prob_r1 2 3 ∧ prob_r1 2 3 = prob_r1_bottomup 2 3 ∧
        prob_r1 2 3 = prob_r3_memo 2 3 ∧ prob_r3_memo 2 3 = prob_r3_bottomup 2 3) :=
  ⟨⟨by norm_num, by norm_num⟩, C1_five_variants_agree 2 3 (by norm_num) (by norm_num)⟩

/-- C2: for `m ≥ 1`, `n ≥ 0` and `0 ≤ k ≤ n`, the direct formula evaluator
returns `m^-n` times the ascending sum over `j` from `k` to `n` of
`(-1)^(j-k) C(j,k) C(m,j) C(n,j) j! (m-j)^(n-j)`, the final factor being
exactly `1` whenever the exponent `n - j` is `0`, regardless of base. -/
theorem C2_direct_formula_contract (m n k : ℕ) (_hm : 1 ≤ m) (_hk : k ≤ n) :
    prob m n k = prob_formula_spec m n k := by
  rw [prob, prob_formula_spec]
  rw [div_eq_mul_inv, mul_comm, ← one_div]
  congr 1
  refine Finset.sum_congr rfl fun j hj => ?_
  rw [probTerm]
  congr 1
  by_cases h : n - j = 0
  · rw [if_neg (by omega), if_pos h]
  · rw [if_pos (by omega), if_neg h]

/-- C2 witness: the contract at the concrete input `(m, n, k) = (2, 3, 1)`. -/
theorem C2_witness :
    (1 ≤ 2 ∧ 1 ≤ 3) ∧ prob 2 3 1 = prob_formula_spec 2 3 1 :=
  ⟨⟨by norm_num, by norm_num⟩, C2_direct_formula_contract 2 3 1 (by norm_num) (by norm_num)⟩

/-- C3 counterexample: the memoized T variant returns `0`, not `1`, at
`(m, n) = (1, 0)`. -/
theorem C3_counterexample : prob_r1 1 0 = 0 ∧ (0 : ℚ) ≠ 1 :=
  ⟨prob_r1_small 1 0 (by omega), by norm_num⟩

/-- C3 (amended: the direct formula satisfies both boundary values
`prob(m,0) = 1` and `prob(m,1) = 0`; every recurrence-based variant
satisfies `prob(m,1) = 0` but returns `0`, not `1`, at `n = 0`, because its
sum over `j ∈ [1, n/2]` is empty there). -/
theorem C3_boundary_values (m : ℕ) (_hm : 1 ≤ m) :
    (prob m 0 0 = 1 ∧ prob m 1 0 = 0)
      ∧ (prob_r1 m 0 = 0 ∧ prob_r1 m 1 = 0)
      ∧ (prob_r1_bottomup m 0 = 0 ∧ prob_r1_bottomup m 1 = 0)
      ∧ (prob_r3_memo m 0 = 0 ∧ prob_r3_memo m 1 = 0)
      ∧ (prob_r3_bottomup m 0 = 0 ∧ prob_r3_bottomup m 1 = 0)
      ∧ (prob_r2_float m 0 = 0 ∧ prob_r2_float m 1 = 0)
      ∧ (prob_r2_bottomup_float m 0 = 0 ∧ prob_r2_bottomup_float m 1 = 0) :=
  ⟨⟨prob_at_zero m, prob_at_one m⟩,
    ⟨prob_r1_small m 0 (by omega), prob_r1_small m 1 (by omega)⟩,
    ⟨prob_r1_bottomup_small m 0 (by omega), prob_r1_bottomup_small m 1 (by omega)⟩,
    ⟨prob_r3_memo_small m 0 (by omega), prob_r3_memo_small m 1 (by omega)⟩,
    ⟨prob_r3_bottomup_small m 0 (by omega), prob_r3_bottomup_small m 1 (by omega)⟩,
    ⟨prob_r2_float_small m 0 (by omega), prob_r2_float_small m 1 (by omega)⟩,
    ⟨prob_r2_bottomup_small m 0 (by omega), prob_r2_bottomup_small m 1 (by omega)⟩⟩

/-- C3 witness: the boundary values at the concrete input `m = 1`. -/
theorem C3_witness :
    1 ≤ 1 ∧ (prob 1 0 0 = 1 ∧ prob 1 1 0 = 0) ∧ (prob_r1 1 0 = 0 ∧ prob_r1 1 1 = 0) :=
  ⟨le_rfl, (C3_boundary_values 1 le_rfl).1, (C3_boundary_values 1 le_rfl).2.1⟩

/-- C4 counterexample: at top-level target `n = 0` (and `m = 1`),
`T_bottomup` returns the empty dict, whose entry at the valid state
`(0, 0, 0, 1)` reads `0`, while the memoized recursion gives
`T(0,0,0,1) = 1`. -/
theorem C4_counterexample :
    T_bottomup 0 1 (0, 0) = 0 ∧ T 0 0 0 1 = 1 ∧ ¬Tinvalid 0 0 0 1 ∧ (0 : ℚ) ≠ 1 := by
  refine ⟨by simp [T_bottomup], ?_, by decide, by norm_num⟩
  exact T_of_base (by decide) (by norm_num)

/-- C4 (amended: the `T` part holds for every top-level target `n ≥ 1` —
at `n = 0` the returned dict is empty — and for all keys, valid or not;
the `S` part holds for every `n ≥ 0` at every key `k ≥ 0` passing the
validity predicate): bottom-up and top-down variants compute identical
values. -/
theorem C4_rolling_layer_equivalence :
    (∀ (n : ℕ) (m : ℤ), 1 ≤ n → 0 ≤ m → ∀ p : ℤ × ℤ,
        T_bottomup n m p = T p.1 p.2 (n : ℤ) m)
      ∧ (∀ (n : ℕ) (k : ℤ), 0 ≤ k → ¬Sinvalid (n : ℤ) k →
          assoc_stirling_bottomup n k = assoc_stirling (n : ℤ) k) := by
  constructor
  · intro n m hn hm p
    rw [T_bottomup, if_neg (by omega)]
    exact T_layer_eq m hm n p
  · intro n k hk hval
    match n with
    | 0 =>
      rw [assoc_stirling_bottomup, if_pos rfl]
      exact S_layer_eq 0 k hk
    | 1 =>
      exfalso
      simp only [Sinvalid, not_or, not_and, not_lt, not_le] at hval
      omega
    | n2 + 2 =>
      rw [assoc_stirling_bottomup, if_neg (by omega), if_pos (by omega)]
      exact S_layer_eq (n2 + 2) k hk

/-- C4 witness: layer equivalence at target `n = 1`, `m = 1`, state `(0, 0)`,
and at `n = 2`, `k = 1` for the associated-Stirling engine. -/
theorem C4_witness :
    ((1 ≤ 1 ∧ (0 : ℤ) ≤ 1) ∧ T_bottomup 1 1 (0, 0) = T 0 0 ((1 : ℕ) : ℤ) 1)
      ∧ ((0 : ℤ) ≤ 1 ∧ ¬Sinvalid ((2 : ℕ) : ℤ) 1
          ∧ assoc_stirling_bottomup 2 1 = assoc_stirling ((2 : ℕ) : ℤ) 1) :=
  ⟨⟨⟨le_rfl, by norm_num⟩,
      C4_rolling_layer_equivalence.1 1 1 le_rfl (by norm_num) (0, 0)⟩,
    ⟨by norm_num, by decide,
      C4_rolling_layer_equivalence.2 2 1 (by norm_num) (by decide)⟩⟩

/-- C5 counterexample: the claim quantifies over every initial memo-table
contents, but the membership test runs before the validity test: if the
invalid key `(-1, 0, 0, 5)` is already present with value `7`, `Tmem`
returns `7`, not `0`. -/
theorem C5_counterexample :
    Tinvalid (-1) 0 0 5
      ∧ (Tmem (-1) 0 0 5 (fun q => if q = (-1, 0, 0, 5) then some 7 else none)).1 = 7
      ∧ (7 : ℚ) ≠ 0 := by
  refine ⟨by decide, ?_, by norm_num⟩
  rw [Tmem]
  simp

/-- C5 (amended: provided the invalid key is not already present in the
memo table): a state key failing the validity predicate makes `T`, `P` and
`assoc_stirling` return exactly `0` and leave the memo table unchanged. -/
theorem C5_pruning_no_memo_write :
    (∀ (j k n m : ℤ) (t : Memo4), Tinvalid j k n m → t (j, k, n, m) = none →
        Tmem j k n m t = (0, t))
      ∧ (∀ (j k n m : ℤ) (t : Memo4), Tinvalid j k n m → t (j, k, n, m) = none →
          Pmem j k n m t = (0, t))
      ∧ (∀ (n k : ℤ) (t : Memo2), Sinvalid n k → t (n, k) = none →
          Smem n k t = (0, t)) := by
  refine ⟨?_, ?_, ?_⟩
  · intro j k n m t hinv hnone
    rw [Tmem, hnone]
    exact dif_pos hinv
  · intro j k n m t hinv hnone
    rw [Pmem, hnone]
    exact dif_pos hinv
  · intro n k t hinv hnone
    rw [Smem, hnone]
    exact dif_pos hinv

/-- C5 witness: pruning at the concrete invalid keys `(-1, 0, 0, 5)` (for
`T` and `P`) and `(0, 1)` (for `S`), each with the fresh empty table. -/
theorem C5_witness :
    (Tinvalid (-1) 0 0 5 ∧ Tmem (-1) 0 0 5 emptyMemo4 = (0, emptyMemo4))
      ∧ (Tinvalid (-1) 0 0 5 ∧ Pmem (-1) 0 0 5 emptyMemo4 = (0, emptyMemo4))
      ∧ (Sinvalid 0 1 ∧ Smem 0 1 emptyMemo2 = (0, emptyMemo2)) :=
  ⟨⟨by decide, C5_pruning_no_memo_write.1 (-1) 0 0 5 emptyMemo4 (by decide) rfl⟩,
    ⟨by decide, C5_pruning_no_memo_write.2.1 (-1) 0 0 5 emptyMemo4 (by decide) rfl⟩,
    ⟨by decide, C5_pruning_no_memo_write.2.2 0 1 emptyMemo2 (by decide) rfl⟩⟩

/-- C6 counterexample: `prob(5, 3, 4)` has `k` outside `[0, n]`, yet the
function silently returns the numeric value `0` (the summation range is
empty); it raises no invalid-argument error. -/
theorem C6_counterexample : prob 5 3 4 = 0 ∧ ¬(4 ≤ 3) := by
  constructor
  · rw [prob, Finset.Icc_eq_empty (by omega)]
    simp
  · omega

/-- C6 (amended: the direct formula evaluator performs no argument
validation at all — it is a total function that never signals an error;
in particular for `k > n` it silently returns the numeric value `0`,
the sum over the empty range). -/
theorem C6_no_fail_fast (m n k : ℕ) (hk : n < k) : prob m n k = 0 := by
  rw [prob, Finset.Icc_eq_empty (by omega), Finset.sum_empty, zero_div]

/-- C6 witness: the silent `0` at the concrete invalid input `(5, 3, 4)`. -/
theorem C6_witness : 3 < 4 ∧ prob 5 3 4 = 0 :=
  ⟨by norm_num, C6_no_fail_fast 5 3 4 (by norm_num)⟩

/-- C7: under exact arithmetic, `P(j,k,n,m) = T(j,k,n,m) / m^n` for every
state with `m ≥ 1`, and at every valid state `P` lies in `[0, 1]`. -/
theorem C7_P_eq_T_div_pow (j k n m : ℤ) (hm : 1 ≤ m) :
    P j k n m = T j k n m / (m : ℚ) ^ n
      ∧ (¬Tinvalid j k n m → 0 ≤ P j k n m ∧ P j k n m ≤ 1) := by
  have hdiv := P_eq_T_div j k n m hm
  refine ⟨hdiv, fun hval => ?_⟩
  have hmQ : (0 : ℚ) < (m : ℚ) := by exact_mod_cast hm
  simp only [Tinvalid, not_or, not_lt] at hval
  obtain ⟨hj, hk2, hn2, hm2⟩ := hval
  have hn0 : 0 ≤ n := by omega
  have hpow : (0 : ℚ) < (m : ℚ) ^ n := zpow_pos hmQ n
  constructor
  · rw [hdiv]
    exact div_nonneg (T_nonneg _ _ _ _) hpow.le
  · rw [hdiv, div_le_one hpow]
    have hcast : T j k n m
        = T ((j.toNat : ℕ) : ℤ) ((k.toNat : ℕ) : ℤ) ((n.toNat : ℕ) : ℤ) m := by
      rw [Int.toNat_of_nonneg (by omega : 0 ≤ j), Int.toNat_of_nonneg (by omega : 0 ≤ k),
        Int.toNat_of_nonneg hn0]
    have hle := T_le_pow m (by omega) n.toNat j.toNat k.toNat
    rw [← hcast] at hle
    calc T j k n m ≤ (m : ℚ) ^ (n.toNat : ℕ) := hle
      _ = (m : ℚ) ^ n := by
          rw [← zpow_natCast, Int.toNat_of_nonneg hn0]

/-- C7 witness: the normalisation identity and the bounds at the concrete
valid state `(j, k, n, m) = (1, 0, 2, 3)`. -/
theorem C7_witness :
    (1 : ℤ) ≤ 3 ∧
      (P 1 0 2 3 = T 1 0 2 3 / ((3 : ℤ) : ℚ) ^ (2 : ℤ)
        ∧ (¬Tinvalid 1 0 2 3 → 0 ≤ P 1 0 2 3 ∧ P 1 0 2 3 ≤ 1)) :=
  ⟨by norm_num, C7_P_eq_T_div_pow 1 0 2 3 (by norm_num)⟩

/-- C8: under exact arithmetic every exposed probability function returns a
value in `[0, 1]`: the counts summed never exceed the total `m^n`. -/
theorem C8_in_unit_interval (m n : ℕ) (hm : 1 ≤ m) :
    (0 ≤ prob m n 0 ∧ prob m n 0 ≤ 1)
      ∧ (0 ≤ prob_r1 m n ∧ prob_r1 m n ≤ 1)
      ∧ (0 ≤ prob_r1_bottomup m n ∧ prob_r1_bottomup m n ≤ 1)
      ∧ (0 ≤ prob_r2_float m n ∧ prob_r2_float m n ≤ 1)
      ∧ (0 ≤ prob_r2_bottomup_float m n ∧ prob_r2_bottomup_float m n ≤ 1)
      ∧ (0 ≤ prob_r3_memo m n ∧ prob_r3_memo m n ≤ 1)
      ∧ (0 ≤ prob_r3_bottomup m n ∧ prob_r3_bottomup m n ≤ 1) := by
  have hcb := common_bounds m n hm
  refine ⟨?_, ?_, ?_, ?_, ?_, ?_, ?_⟩
  · by_cases hn : n = 0
    · subst hn
      rw [prob_at_zero m]
      norm_num
    · rw [prob_direct_eq_sum m n (by omega), ← sum_Tj0_eq_sum_stir (m : ℤ) (by omega) n]
      exact hcb
  · rw [prob_r1_eq_sum]
    exact hcb
  · rw [prob_r1_bottomup_eq_sum m n hm]
    exact hcb
  · rw [prob_r2_float_eq_sum, sum_P_eq_sum_T_div m n hm]
    exact hcb
  · rw [prob_r2_bottomup_eq_sum m n hm, sum_P_eq_sum_T_div m n hm]
    exact hcb
  · rw [prob_r3_memo_eq_sum, sum_r3_eq_sum_stir, ← sum_Tj0_eq_sum_stir (m : ℤ) (by omega) n]
    exact hcb
  · rw [prob_r3_bottomup_eq_sum, sum_r3_eq_sum_stir, ← sum_Tj0_eq_sum_stir (m : ℤ) (by omega) n]
    exact hcb

/-- C8 witness: the unit-interval bounds at the concrete input `(2, 3)`. -/
theorem C8_witness :
    1 ≤ 2 ∧ (0 ≤ prob 2 3 0 ∧ prob 2 3 0 ≤ 1) ∧ (0 ≤ prob_r1 2 3 ∧ prob_r1 2 3 ≤ 1) :=
  ⟨by norm_num, (C8_in_unit_interval 2 3 (by norm_num)).1,
    (C8_in_unit_interval 2 3 (by norm_num)).2.1⟩

/-- C9: every key with a non-zero value in a layer `n ≥ 1` built by
`T_bottomup` or `P_bottomup` satisfies `j ≥ 0`, `k ≥ 0`, `2j + k ≤ n` and
`j + k ≤ m` (membership in the stored dict coincides with a non-zero value,
since the loops store only non-zero results); in particular `P_bottomup`
preserves `j + k ≤ m` although its loop omits the `m < j + k` test. -/
theorem C9_layer_support (m : ℤ) (n : ℕ) (j k : ℤ) (hm : 1 ≤ m) (_hn : 1 ≤ n) :
    (T_layer m n (j, k) ≠ 0 → 0 ≤ j ∧ 0 ≤ k ∧ 2 * j + k ≤ (n : ℤ) ∧ j + k ≤ m)
      ∧ (P_layer m n (j, k) ≠ 0 → 0 ≤ j ∧ 0 ≤ k ∧ 2 * j + k ≤ (n : ℤ) ∧ j + k ≤ m) := by
  constructor
  · intro h
    rw [T_layer_eq m (by omega) n (j, k)] at h
    have hval : ¬Tinvalid j k (n : ℤ) m := fun hinv => h (T_of_invalid hinv)
    simp only [Tinvalid, not_or, not_lt] at hval
    exact ⟨hval.1, hval.2.1, hval.2.2.1, hval.2.2.2⟩
  · intro h
    rw [P_layer_eq m hm n (j, k)] at h
    have hval : ¬Tinvalid j k (n : ℤ) m := fun hinv => h (P_of_invalid hinv)
    simp only [Tinvalid, not_or, not_lt] at hval
    exact ⟨hval.1, hval.2.1, hval.2.2.1, hval.2.2.2⟩

/-- C9 witness: the support invariant at the concrete layer `n = 1`,
`m = 1`, key `(0, 1)`. -/
theorem C9_witness :
    ((1 : ℤ) ≤ 1 ∧ 1 ≤ 1) ∧
      ((T_layer 1 1 (0, 1) ≠ 0 → 0 ≤ (0 : ℤ) ∧ 0 ≤ (1 : ℤ) ∧
          2 * 0 + 1 ≤ ((1 : ℕ) : ℤ) ∧ 0 + 1 ≤ (1 : ℤ))
        ∧ (P_layer 1 1 (0, 1) ≠ 0 → 0 ≤ (0 : ℤ) ∧ 0 ≤ (1 : ℤ) ∧
            2 * 0 + 1 ≤ ((1 : ℕ) : ℤ) ∧ 0 + 1 ≤ (1 : ℤ))) :=
  ⟨⟨le_rfl, le_rfl⟩, C9_layer_support 1 1 0 1 le_rfl le_rfl⟩

/-- C10: calling `assoc_stirling` with the memo parameter omitted fails
(the membership test `(n, k) in memo` runs on `None` before any guard,
raising `TypeError`, modelled as `Except.error`) for every `(n, k)`, while
a supplied dictionary always succeeds; `T` and `P` instead allocate a fresh
table when the parameter is omitted. -/
theorem C10_default_memo_behaviour :
    (∀ n k : ℤ, Scall n k none = Except.error ())
      ∧ (∀ (n k : ℤ) (t : Memo2), Scall n k (some t) = Except.ok (Smem n k t))
      ∧ (∀ j k n m : ℤ, Tcall j k n m none = Tmem j k n m emptyMemo4)
      ∧ (∀ j k n m : ℤ, Pcall j k n m none = Pmem j k n m emptyMemo4) :=
  ⟨fun _ _ => rfl, fun _ _ _ => rfl, fun _ _ _ _ => rfl, fun _ _ _ _ => rfl⟩

end SBP
